import Mathlib

/-!
Shallow embedding of the scheduling / transfer-orchestration engine of the
CCraft automation repository, together with proofs of the specification
claims about it.

Sources embedded:
* `src/lib/scheduler/weighted.ts` — `WeightedScheduler` and `executeTransfer`
* `StockBasedScheduler` (stock-based policy)
* `ProcessingEngine` (chain processing engine)
* `src/engine/scheduler.ts` — the older `Scheduler.selectMaterial` variant

TypeScript `Map`s and `Record`s are embedded as association lists in
insertion order; machine integers (item counts) as `Int`; the floating point
weights, random draws and urgency scores as `ℚ` (the programs perform only
field arithmetic and comparisons on them).  Exogenous effects (the random
generator, peripheral reads, the move primitive) are passed in explicitly as
oracle arguments.
-/

namespace CCraft

/-- Association-list lookup, embedding `Map.get` / `Record` indexing. -/
def lookupA {α : Type} (l : List (String × α)) (k : String) : Option α :=
  (l.find? (fun p => p.1 == k)).map (·.2)

/-- Association-list update of an existing key, embedding in-place mutation of
the value stored under `k` (the schedulers only ever update keys that are
already present). -/
def setA {α : Type} (l : List (String × α)) (k : String) (v : α) : List (String × α) :=
  l.map (fun p => if p.1 == k then (k, v) else p)

/-- Association-list deletion, embedding `Map.delete`. -/
def eraseA {α : Type} (l : List (String × α)) (k : String) : List (String × α) :=
  l.filter (fun p => !(p.1 == k))

/-- `SlotInfo` from the orchestrator-era inventory types: a slot index with a
per-slot count. -/
structure SlotInfo where
  slot : Int
  count : Int
deriving Repr, DecidableEq

/-- `InventoryItemInfo` from the orchestrator-era inventory types: the total
count of one item identity and the slots holding it. -/
structure InventoryItemInfo where
  totalCount : Int
  slots : List SlotInfo
deriving Repr, DecidableEq

/-- An inventory snapshot: `Map<string, InventoryItemInfo>` in insertion
order. -/
abbrev Inv := List (String × InventoryItemInfo)

/-- Total count recorded for item `x` in a snapshot (`0` when absent). -/
def lookupTotal (inv : Inv) (x : String) : Int :=
  ((lookupA inv x).map (·.totalCount)).getD 0

/-- `MachineState` from the orchestrator types. -/
structure MachineState where
  id : String
  type : String
  inputChest : String
  isEmpty : Bool
deriving Repr, DecidableEq

/-- `Assignment` from the orchestrator types. -/
structure Assignment where
  machineId : String
  targetChest : String
  itemId : String
  sourceSlot : Int
  amount : Int
deriving Repr, DecidableEq

/-- Sum of `amount` over the emitted assignments whose `itemId` is `x`. -/
def assignedTotal (asgs : List Assignment) (x : String) : Int :=
  ((asgs.filter (fun a => a.itemId == x)).map (·.amount)).sum

/-- The deep copy of the snapshot that both `schedule` implementations build
before doing any bookkeeping (`slots.map(s => ({slot: s.slot, count: s.count}))`). -/
def deepCopyInv (inv : Inv) : Inv :=
  inv.map (fun p =>
    (p.1, { totalCount := p.2.totalCount,
            slots := p.2.slots.map (fun s => { slot := s.slot, count := s.count }) }))

/-- Index of the slot the schedulers pick:
`slots.find(s => s.count >= transferAmount) ?? slots[0]`. -/
def chooseSlotIdx (slots : List SlotInfo) (transferAmount : Int) : Nat :=
  (slots.findIdx? (fun s => decide (transferAmount ≤ s.count))).getD 0

/-- The in-place update both schedulers perform on the chosen item record
after emitting an assignment: decrement the chosen slot's count, decrement
`totalCount`, and filter the slot out of the list if its count dropped to 0
or below. -/
def applyTransferToItem (info : InventoryItemInfo) (idx : Nat) (amount : Int) :
    InventoryItemInfo :=
  match info.slots.get? idx with
  | none => { info with totalCount := info.totalCount - amount }
  | some s =>
    let s2 : SlotInfo := { s with count := s.count - amount }
    { totalCount := info.totalCount - amount,
      slots := if s2.count ≤ 0 then info.slots.eraseIdx idx else info.slots.set idx s2 }

/-- Snapshot-level bookkeeping step shared by both schedulers: update the
item record under `itemId` and drop the whole entry when its `totalCount`
reaches 0 or below. -/
def commitAssignment (inv : Inv) (itemId : String) (idx : Nat) (amount : Int) : Inv :=
  match lookupA inv itemId with
  | none => inv
  | some itemInfo =>
    let info2 := applyTransferToItem itemInfo idx amount
    if info2.totalCount ≤ 0 then eraseA inv itemId else setA inv itemId info2

/-! ## The weighted-random scheduler (`src/lib/scheduler/weighted.ts`) -/

namespace WeightedScheduler

/-- `MaterialDefinition` from the weighted scheduler's types. -/
structure MaterialDefinition where
  id : String
  itemId : String
  minStock : Int
  weight : ℚ
deriving Repr, DecidableEq

/-- `MachineTypeDefinition` (only the field the scheduler reads). -/
structure MachineTypeDefinition where
  supportedMaterials : List String
deriving Repr, DecidableEq

/-- `WeightedSchedulerConfig`. -/
structure Config where
  materials : List (String × MaterialDefinition)
  machineTypes : List (String × MachineTypeDefinition)
  transferAmount : Int

/-- Internal `AvailableMaterial` record. -/
structure AvailableMaterial where
  definition : MaterialDefinition
  slots : List SlotInfo
deriving Repr, DecidableEq

/-- `WeightedScheduler.getAvailableMaterials`: filter the machine type's
supported materials to the ones resolvable in the config whose running
inventory total is at least `minStock + transferAmount`. -/
def getAvailableMaterials (cfg : Config) (machineType : MachineTypeDefinition)
    (inventory : Inv) : List AvailableMaterial :=
  machineType.supportedMaterials.filterMap (fun matId =>
    match lookupA cfg.materials matId with
    | none => none
    | some matDef =>
      match lookupA inventory matDef.itemId with
      | none => none
      | some invEntry =>
        if invEntry.totalCount < matDef.minStock + cfg.transferAmount then none
        else some { definition := matDef, slots := invEntry.slots })

/-- Total weight `Σ weight` over the candidate list. -/
def totalWeightOf (mats : List AvailableMaterial) : ℚ :=
  mats.foldl (fun acc m => acc + m.definition.weight) 0

/-- The cumulative-weight walk of `weightedSelect`: return the first
candidate for which `random < cumulative`. -/
def selectLoop (r : ℚ) : List AvailableMaterial → ℚ → Option AvailableMaterial
  | [], _ => none
  | m :: rest, cum =>
    let cum2 := cum + m.definition.weight
    if r < cum2 then some m else selectLoop r rest cum2

/-- `WeightedScheduler.weightedSelect`.  `u` is the exogenous `math.random()`
draw (uniform in `[0,1)`); the source multiplies it by the total weight and
walks the cumulative sums, falling back to `materials[0]`. -/
def weightedSelect (mats : List AvailableMaterial) (u : ℚ) : Option AvailableMaterial :=
  match mats with
  | [] => none
  | [m] => some m
  | _ :: _ :: _ =>
    let random := u * totalWeightOf mats
    match selectLoop random mats 0 with
    | some m => some m
    | none => mats.head?

/-- The per-machine loop of `WeightedScheduler.schedule`.  `rand i` is the
`math.random()` draw available to the `i`-th machine of the list. -/
def scheduleGo (cfg : Config) (rand : Nat → ℚ) :
    List MachineState → Nat → Inv → List Assignment
  | [], _, _ => []
  | machine :: rest, i, inv =>
    if !machine.isEmpty then scheduleGo cfg rand rest (i + 1) inv
    else
      match lookupA cfg.machineTypes machine.type with
      | none => scheduleGo cfg rand rest (i + 1) inv
      | some machineType =>
        let available := getAvailableMaterials cfg machineType inv
        match weightedSelect available (rand i) with
        | none => scheduleGo cfg rand rest (i + 1) inv
        | some selected =>
          match selected.slots.find? (fun s => decide (cfg.transferAmount ≤ s.count))
              <|> selected.slots.head? with
          | none => scheduleGo cfg rand rest (i + 1) inv
          | some slotInfo =>
            { machineId := machine.id
              targetChest := machine.inputChest
              itemId := selected.definition.itemId
              sourceSlot := slotInfo.slot
              amount := cfg.transferAmount } ::
            scheduleGo cfg rand rest (i + 1)
              (commitAssignment inv selected.definition.itemId
                (chooseSlotIdx selected.slots cfg.transferAmount) cfg.transferAmount)

/-- `WeightedScheduler.schedule`: deep-copy the snapshot, then walk the
machines emitting at most one assignment per empty machine. -/
def schedule (cfg : Config) (rand : Nat → ℚ) (machines : List MachineState)
    (inventory : Inv) : List Assignment :=
  scheduleGo cfg rand machines 0 (deepCopyInv inventory)

end WeightedScheduler

/-! ## The stock-based scheduler (`StockBasedScheduler`) -/

namespace StockBasedScheduler

/-- `RecipeDefinition`. -/
structure RecipeDefinition where
  input : String
  output : String
deriving Repr, DecidableEq

/-- `StockTarget`. -/
structure StockTarget where
  itemId : String
  targetCount : Int
  weight : ℚ
  minReserve : Option Int
deriving Repr, DecidableEq

/-- `StockBasedSchedulerConfig`. -/
structure Config where
  recipes : List (String × List RecipeDefinition)
  stockTargets : List StockTarget
  transferAmount : Int

/-- Internal `ScoredRecipe` record. -/
structure ScoredRecipe where
  recipe : RecipeDefinition
  urgency : ℚ
deriving Repr, DecidableEq

/-- `StockBasedScheduler.scoreRecipes`: urgency of a recipe is
`max(0, (targetCount − currentOutputCount) / targetCount) * weight` for the
stock target matching the recipe's output, and `0` when no target matches. -/
def scoreRecipes (cfg : Config) (recipes : List RecipeDefinition) (inventory : Inv) :
    List ScoredRecipe :=
  recipes.map (fun recipe =>
    match cfg.stockTargets.find? (fun t => t.itemId == recipe.output) with
    | none => { recipe := recipe, urgency := 0 }
    | some target =>
      let currentCount := lookupTotal inventory recipe.output
      { recipe := recipe
        urgency := max 0 (((target.targetCount : ℚ) - (currentCount : ℚ)) /
            (target.targetCount : ℚ)) * target.weight })

/-- The comparator used to sort scored recipes
(`b.urgency - a.urgency`, tie-broken by `a.recipe.output < b.recipe.output`),
phrased as a `≤`-style boolean relation for the sort: `a` may precede `b`. -/
def scoredLE (a b : ScoredRecipe) : Bool :=
  if a.urgency = b.urgency then !(decide (b.recipe.output < a.recipe.output))
  else decide (b.urgency < a.urgency)

/-- `minReserve` resolution for an input material:
`stockTargets.find(t => t.itemId === input)?.minReserve ?? 0`. -/
def reserveFor (cfg : Config) (input : String) : Int :=
  ((cfg.stockTargets.find? (fun t => t.itemId == input)).bind (·.minReserve)).getD 0

/-- The inner candidate walk of `StockBasedScheduler.schedule`: try the
scored recipes in order; the first with positive urgency whose input stock
covers `minReserve + transferAmount` and which has a usable slot produces the
machine's assignment and the updated running inventory. -/
def tryAssignRecipe (cfg : Config) (machine : MachineState) :
    List ScoredRecipe → Inv → Option (Assignment × Inv)
  | [], _ => none
  | sr :: rest, inv =>
    if sr.urgency ≤ 0 then tryAssignRecipe cfg machine rest inv
    else
      match lookupA inv sr.recipe.input with
      | none => tryAssignRecipe cfg machine rest inv
      | some inputInfo =>
        let required := reserveFor cfg sr.recipe.input + cfg.transferAmount
        if inputInfo.totalCount < required then tryAssignRecipe cfg machine rest inv
        else
          match inputInfo.slots.find? (fun s => decide (cfg.transferAmount ≤ s.count))
              <|> inputInfo.slots.head? with
          | none => tryAssignRecipe cfg machine rest inv
          | some slotInfo =>
            some ({ machineId := machine.id
                    targetChest := machine.inputChest
                    itemId := sr.recipe.input
                    sourceSlot := slotInfo.slot
                    amount := cfg.transferAmount },
                  commitAssignment inv sr.recipe.input
                    (chooseSlotIdx inputInfo.slots cfg.transferAmount) cfg.transferAmount)

/-- The per-machine loop of `StockBasedScheduler.schedule` (over the empty
machines only). -/
def scheduleGo (cfg : Config) : List MachineState → Inv → List Assignment
  | [], _ => []
  | machine :: rest, inv =>
    match lookupA cfg.recipes machine.type with
    | none => scheduleGo cfg rest inv
    | some recipes =>
      if recipes.isEmpty then scheduleGo cfg rest inv
      else
        let sorted := (scoreRecipes cfg recipes inv).mergeSort scoredLE
        match tryAssignRecipe cfg machine sorted inv with
        | none => scheduleGo cfg rest inv
        | some (asg, inv2) => asg :: scheduleGo cfg rest inv2

/-- `StockBasedScheduler.schedule`: deep-copy the snapshot, filter to empty
machines, then assign each one the most urgent viable recipe's input. -/
def schedule (cfg : Config) (machines : List MachineState) (inventory : Inv) :
    List Assignment :=
  scheduleGo cfg (machines.filter (·.isEmpty)) (deepCopyInv inventory)

end StockBasedScheduler

/-! ## The transfer executor (`executeTransfer`) -/

/-- Exogenous behaviour of the source peripheral during one batched transfer
call: whether the batch call completes without a transport error, what the
direct `getItemDetail` read of the source slot returns (the item name, or
`none` for an empty slot), and what `pushItems` reports when invoked. -/
structure TransferEnv where
  callOk : Bool
  slotItem : Option String
  pushResult : Int
deriving Repr, DecidableEq

/-- `TransferRequest` (the peripheral itself is replaced by `TransferEnv`). -/
structure TransferRequest where
  targetName : String
  sourceSlot : Int
  expectedItemId : String
  amount : Int
deriving Repr, DecidableEq

/-- `TransferSuccess`. -/
structure TransferSuccess where
  transferred : Int
  sourceSlot : Int
deriving Repr, DecidableEq

/-- The error values `executeTransfer` can return (`ERR_SLOT_CHANGED` with
slot, expected and actual identity; `ERR_TRANSFER_FAILED` with the source
slot and reason; `ERR_PERIPHERAL_DISCONNECTED`). -/
inductive TransferErr where
  | slotChanged (slot : Int) (expected : String) (actual : String)
  | transferFailed (sourceSlot : Int) (reason : String)
  | peripheralDisconnected
deriving Repr, DecidableEq

/-- The union returned by the batched peripheral call inside
`executeTransfer`. -/
inductive CallResult where
  | slotChanged (actual : Option String)
  | transferFailed
  | disconnected
  | transferred (n : Int)
deriving Repr, DecidableEq

/-- `executeTransfer`: verify the source slot still holds the expected item,
then push.  The second component instruments whether the move primitive
(`pushItems`) was invoked during the call; the first component is the
function's return value.  The function is total: every transport failure is
turned into an error value, never an exception. -/
def executeTransfer (req : TransferRequest) (env : TransferEnv) :
    Except TransferErr TransferSuccess × Bool :=
  let step : CallResult × Bool :=
    if env.callOk then
      match env.slotItem with
      | none => (.slotChanged none, false)
      | some name =>
        if name ≠ req.expectedItemId then (.slotChanged (some name), false)
        else if env.pushResult = 0 then (.transferFailed, true)
        else (.transferred env.pushResult, true)
    else (.disconnected, false)
  match step with
  | (.slotChanged actual, pushed) =>
    (.error (.slotChanged req.sourceSlot req.expectedItemId (actual.getD "empty")), pushed)
  | (.transferFailed, pushed) =>
    (.error (.transferFailed req.sourceSlot "no_items_transferred"), pushed)
  | (.disconnected, pushed) => (.error .peripheralDisconnected, pushed)
  | (.transferred n, pushed) =>
    (.ok { transferred := n, sourceSlot := req.sourceSlot }, pushed)

/-! ## The chain processing engine (`ProcessingEngine`) -/

namespace ProcessingEngine

/-- `STACK_SIZE` from the engine-era types. -/
def STACK_SIZE : Int := 64

/-- `InventoryItemInfo` from the engine-era types (`src/types.ts`): the slots
are bare slot numbers, with no per-slot count. -/
structure ItemInfo where
  totalCount : Int
  slots : List Int
deriving Repr, DecidableEq

/-- The engine-era inventory snapshot. -/
abbrev InvE := List (String × ItemInfo)

/-- Total count recorded for item `x` (`0` when absent). -/
def lookupTotalE (inv : InvE) (x : String) : Int :=
  ((lookupA inv x).map (·.totalCount)).getD 0

/-- `ProcessingPhaseConfig`; the chain `Record` is embedded as its list of
(input, output) entries in iteration order. -/
structure PhaseConfig where
  minInputReserve : Int
  maxOutputStock : Int
  chain : List (String × String)

/-- `ProcessingResult`. -/
structure ProcessingResult where
  inputItemId : String
  outputItemId : String
  itemsTransferred : Int
  sourceSlot : Int
deriving Repr, DecidableEq

/-- The error values of the engine's private helpers. -/
inductive EngineErr where
  | peripheralDisconnected
  | inputBelowReserve (input : String) (haveCount required : Int)
  | outputAtMax (output : String) (haveCount maxStock : Int)
  | noSlotFound (input : String)
  | slotChanged (slot : Int) (expected : String) (actual : String)
  | transferFailed (input : String) (reason : String)
deriving Repr, DecidableEq

/-- What one `p.size()` / `p.list()` read of the processing chest returns:
`none` when the batched call fails, otherwise the chest size and the counts
of the stacks currently listed. -/
structure ChestState where
  size : Nat
  itemCounts : List Int
deriving Repr, DecidableEq

/-- `ProcessingEngine.hasAvailableSpace`: count the occupied slots and
compare against the chest size. -/
def hasAvailableSpace (chest : Option ChestState) : Except EngineErr Bool :=
  match chest with
  | none => .error .peripheralDisconnected
  | some c =>
    let occupied := (c.itemCounts.filter (fun n => decide (0 < n))).length
    .ok (decide (occupied < c.size))

/-- `ProcessingEngine.shouldProcess`: input stock must cover
`minInputReserve + STACK_SIZE`, output stock must be below `maxOutputStock`,
and the input must have a source slot; returns that slot. -/
def shouldProcess (config : PhaseConfig) (inventoryContents : InvE)
    (inputItemId outputItemId : String) : Except EngineErr Int :=
  let inputCount := lookupTotalE inventoryContents inputItemId
  let requiredInput := config.minInputReserve + STACK_SIZE
  if inputCount < requiredInput then
    .error (.inputBelowReserve inputItemId inputCount requiredInput)
  else
    let outputCount := lookupTotalE inventoryContents outputItemId
    if config.maxOutputStock ≤ outputCount then
      .error (.outputAtMax outputItemId outputCount config.maxOutputStock)
    else
      match (lookupA inventoryContents inputItemId).bind (fun i => i.slots.head?) with
      | none => .error (.noSlotFound inputItemId)
      | some s => .ok s

/-- `ProcessingEngine.transferToProcessing`: the same verify-then-push batch
as `executeTransfer`, with the engine's error payloads.  The second
component instruments whether `pushItems` was invoked. -/
def transferToProcessing (inputItemId outputItemId : String) (sourceSlot : Int)
    (env : TransferEnv) : Except EngineErr ProcessingResult × Bool :=
  let step : CallResult × Bool :=
    if env.callOk then
      match env.slotItem with
      | none => (.slotChanged none, false)
      | some name =>
        if name ≠ inputItemId then (.slotChanged (some name), false)
        else if env.pushResult = 0 then (.transferFailed, true)
        else (.transferred env.pushResult, true)
    else (.disconnected, false)
  match step with
  | (.slotChanged actual, pushed) =>
    (.error (.slotChanged sourceSlot inputItemId (actual.getD "empty")), pushed)
  | (.transferFailed, pushed) =>
    (.error (.transferFailed inputItemId "no_items_transferred"), pushed)
  | (.disconnected, pushed) => (.error .peripheralDisconnected, pushed)
  | (.transferred n, pushed) =>
    (.ok { inputItemId := inputItemId, outputItemId := outputItemId,
           itemsTransferred := n, sourceSlot := sourceSlot }, pushed)

/-- The local-inventory bookkeeping the engine performs after a successful
transfer: decrement `totalCount` by the transferred amount and drop the item
entry when it reaches 0 or below (the engine-era slot list carries no counts
and is not touched). -/
def updateLocalInventory (inv : InvE) (inputItemId : String) (n : Int) : InvE :=
  match lookupA inv inputItemId with
  | none => inv
  | some inputInfo =>
    let info2 : ItemInfo := { inputInfo with totalCount := inputInfo.totalCount - n }
    if info2.totalCount ≤ 0 then eraseA inv inputItemId else setA inv inputItemId info2

/-- Exogenous peripheral behaviour for one engine run: the processing-chest
state read by the `i`-th link's space check, and the transfer environment of
the `i`-th link's transfer attempt. -/
structure EngineEnv where
  chest : Nat → Option ChestState
  transfer : Nat → TransferEnv

/-- Observable outcome of the chain walk.  `results` is what
`processAllMaterials` returns; `attempts` instruments the link indices at
which `transferToProcessing` was invoked, and `finalInventory` instruments
the local running inventory left when the walk ends. -/
structure EngineOutcome where
  results : List ProcessingResult
  attempts : List Nat
  finalInventory : InvE
deriving Repr, DecidableEq

/-- The chain walk of `ProcessingEngine.processAllMaterials`: per link, break
the whole walk when the chest space check fails or reports full; skip the
link when the chest's initial listing already contains the input material or
`shouldProcess` rejects it; otherwise attempt the transfer, updating the
running inventory only on success. -/
def processGo (config : PhaseConfig) (env : EngineEnv) (chestItems : List String) :
    List (String × String) → Nat → InvE → EngineOutcome
  | [], _, inv => { results := [], attempts := [], finalInventory := inv }
  | (inputItemId, outputItemId) :: rest, i, inv =>
    match hasAvailableSpace (env.chest i) with
    | .error _ => { results := [], attempts := [], finalInventory := inv }
    | .ok false => { results := [], attempts := [], finalInventory := inv }
    | .ok true =>
      if chestItems.contains inputItemId then
        processGo config env chestItems rest (i + 1) inv
      else
        match shouldProcess config inv inputItemId outputItemId with
        | .error _ => processGo config env chestItems rest (i + 1) inv
        | .ok sourceSlot =>
          match transferToProcessing inputItemId outputItemId sourceSlot (env.transfer i) with
          | (.ok pr, _) =>
            let out := processGo config env chestItems rest (i + 1)
                (updateLocalInventory inv inputItemId pr.itemsTransferred)
            { results := pr :: out.results
              attempts := i :: out.attempts
              finalInventory := out.finalInventory }
          | (.error _, _) =>
            let out := processGo config env chestItems rest (i + 1) inv
            { out with attempts := i :: out.attempts }

/-- The engine-era deep copy of the snapshot (`slots: [...value.slots]`). -/
def deepCopyInvE (inv : InvE) : InvE :=
  inv.map (fun p => (p.1, { totalCount := p.2.totalCount, slots := p.2.slots }))

/-- `ProcessingEngine.processAllMaterials`: copy the scanned snapshot, read
the chest's initial listing, then walk the chain.  `scan` is the scanner's
result (`none` when it failed) and `chestList` the initial `p.list()` of the
processing chest (`none` when disconnected). -/
def processAllMaterials (config : PhaseConfig) (env : EngineEnv)
    (scan : Option InvE) (chestList : Option (List String)) : EngineOutcome :=
  match scan with
  | none => { results := [], attempts := [], finalInventory := [] }
  | some inv0 =>
    let localInventory := deepCopyInvE inv0
    match chestList with
    | none => { results := [], attempts := [], finalInventory := localInventory }
    | some chestItems => processGo config env chestItems config.chain 0 localInventory

end ProcessingEngine

/-! ## The engine-era scheduler (`src/engine/scheduler.ts`) -/

namespace EngineScheduler

/-- `MaterialConfig` of the engine-era types (the fields `selectMaterial`
reads). -/
structure MaterialConfig where
  itemId : String
  minStock : Int
  weight : ℚ
deriving Repr, DecidableEq

/-- `UneartherTypeDefinition` (the field `selectMaterial` reads). -/
structure UneartherType where
  supportedMaterials : List String
deriving Repr, DecidableEq

/-- `SchedulerConfig`. -/
structure Config where
  materials : List (String × MaterialConfig)
  uneartherTypes : List (String × UneartherType)

/-- `UneartherInstance` (the fields `selectMaterial` reads). -/
structure UneartherInstance where
  id : String
  type : String
deriving Repr, DecidableEq

/-- Internal `AvailableMaterial` record of the engine-era scheduler. -/
structure AvailableMaterial where
  materialId : String
  config : MaterialConfig
  availableCount : Int
  slots : List Int
deriving Repr, DecidableEq

/-- `MaterialSelection`. -/
structure MaterialSelection where
  materialId : String
  material : MaterialConfig
  sourceSlot : Option Int
deriving Repr, DecidableEq

/-- The engine-era scheduler's error codes. -/
inductive SchedErr where
  | unknownUneartherType (t : String)
  | noMaterialAvailable (uneartherId t : String)
deriving Repr, DecidableEq

/-- The candidate filter inside `Scheduler.selectMaterial`: supported
materials resolvable in the config whose inventory total is at least
`minStock + stackSize`. -/
def availableMaterials (cfg : Config) (uType : UneartherType)
    (inventoryContents : List (String × ProcessingEngine.ItemInfo)) (stackSize : Int) :
    List AvailableMaterial :=
  uType.supportedMaterials.filterMap (fun matId =>
    match lookupA cfg.materials matId with
    | none => none
    | some matConfig =>
      match lookupA inventoryContents matConfig.itemId with
      | none => none
      | some invEntry =>
        if invEntry.totalCount < matConfig.minStock + stackSize then none
        else some { materialId := matId, config := matConfig,
                    availableCount := invEntry.totalCount, slots := invEntry.slots })

/-- Total weight over the engine-era candidate list. -/
def totalWeightOf (mats : List AvailableMaterial) : ℚ :=
  mats.foldl (fun acc m => acc + m.config.weight) 0

/-- The cumulative-weight walk of the engine-era `weightedSelect`. -/
def selectLoop (r : ℚ) : List AvailableMaterial → ℚ → Option AvailableMaterial
  | [], _ => none
  | m :: rest, cum =>
    let cum2 := cum + m.config.weight
    if r < cum2 then some m else selectLoop r rest cum2

/-- `Scheduler.weightedSelect` (engine-era copy of the same algorithm). -/
def weightedSelect (mats : List AvailableMaterial) (u : ℚ) : Option AvailableMaterial :=
  match mats with
  | [] => none
  | [m] => some m
  | _ :: _ :: _ =>
    let random := u * totalWeightOf mats
    match selectLoop random mats 0 with
    | some m => some m
    | none => mats.head?

/-- `Scheduler.selectMaterial`. -/
def selectMaterial (cfg : Config) (unearther : UneartherInstance)
    (inventoryContents : List (String × ProcessingEngine.ItemInfo))
    (stackSize : Int) (u : ℚ) : Except SchedErr MaterialSelection :=
  match lookupA cfg.uneartherTypes unearther.type with
  | none => .error (.unknownUneartherType unearther.type)
  | some uType =>
    let available := availableMaterials cfg uType inventoryContents stackSize
    match weightedSelect available u with
    | none => .error (.noMaterialAvailable unearther.id unearther.type)
    | some selected =>
      .ok { materialId := selected.materialId, material := selected.config,
            sourceSlot := selected.slots.head? }

end EngineScheduler

/-! ## Reference-semantics model of the two schedulers

The claims about mutation require tracking object identity: the schedulers
receive a `Map` of `InventoryItemInfo` records whose slot entries are mutable
records, and the deep copy at the top of each `schedule` is what keeps the
caller's snapshot intact.  `RefModel` embeds exactly this: item records and
slot records live in a heap addressed by allocation order; the caller passes
item addresses; `schedule`'s deep copy allocates fresh cells, and every
in-place mutation of the source is a `writeH`.  Reads of dangling addresses
yield defaults (the source would have crashed there; no claim depends on
those paths). -/

namespace RefModel

/-- A heap cell: a `SlotInfo` record (`{slot, count}`) or an
`InventoryItemInfo` record (`{totalCount, slots}`, the slot array holding
the addresses of its slot records). -/
inductive Cell where
  | slotC (slot count : Int)
  | itemC (totalCount : Int) (slotAddrs : List Nat)
deriving Repr, DecidableEq

/-- A heap together with the next fresh address. -/
structure Store where
  heap : List (Nat × Cell)
  next : Nat

/-- Dereference an address. -/
def readH (st : Store) (a : Nat) : Option Cell :=
  (st.heap.find? (fun p => p.1 == a)).map (·.2)

/-- In-place update of the record at address `a` (a no-op on a dangling
address). -/
def writeH (st : Store) (a : Nat) (c : Cell) : Store :=
  { st with heap := st.heap.map (fun p => if p.1 == a then (a, c) else p) }

/-- Allocate a fresh record (an object literal in the source). -/
def allocH (st : Store) (c : Cell) : Store × Nat :=
  ({ heap := st.heap ++ [(st.next, c)], next := st.next + 1 }, st.next)

/-- Every allocated address is below `next`. -/
def WfStore (st : Store) : Prop := ∀ p ∈ st.heap, p.1 < st.next

/-- Item records at addresses ≥ `n0` only reference slot records at
addresses ≥ `n0`. -/
def HighOk (n0 : Nat) (st : Store) : Prop :=
  ∀ a t ss, n0 ≤ a → readH st a = some (.itemC t ss) → ∀ b ∈ ss, n0 ≤ b

/-- All entries of a local inventory map point at addresses ≥ `n0`. -/
def LocalOk (n0 : Nat) (l : List (String × Nat)) : Prop := ∀ p ∈ l, n0 ≤ p.2

/-- The slot-copy loop of the deep copy:
`value.slots.map(s => ({slot: s.slot, count: s.count}))` — read each slot
record and allocate a fresh copy. -/
def copySlots : Store → List Nat → Store × List Nat
  | st, [] => (st, [])
  | st, a :: rest =>
    let sc : Int × Int :=
      match readH st a with
      | some (.slotC s c) => (s, c)
      | _ => (0, 0)
    let st1 := allocH st (.slotC sc.1 sc.2)
    let str := copySlots st1.1 rest
    (str.1, st1.2 :: str.2)

/-- The item-copy loop of the deep copy: for each entry allocate a fresh
item record holding freshly copied slot records. -/
def copyItems : Store → List (String × Nat) → Store × List (String × Nat)
  | st, [] => (st, [])
  | st, (k, a) :: rest =>
    let tv : Int × List Nat :=
      match readH st a with
      | some (.itemC t ss) => (t, ss)
      | _ => (0, [])
    let stss := copySlots st tv.2
    let sta := allocH stss.1 (.itemC tv.1 stss.2)
    let str := copyItems sta.1 rest
    (str.1, (k, sta.2) :: str.2)

/-- Read an item record. -/
def readItem (st : Store) (a : Nat) : Option (Int × List Nat) :=
  match readH st a with
  | some (.itemC t ss) => some (t, ss)
  | _ => none

/-- Read a slot record's `count` field. -/
def readSlotCount (st : Store) (a : Nat) : Int :=
  match readH st a with
  | some (.slotC _ c) => c
  | _ => 0

/-- Read a slot record's `slot` field. -/
def readSlotIdx (st : Store) (a : Nat) : Int :=
  match readH st a with
  | some (.slotC s _) => s
  | _ => 0

/-- `slots.find(s => s.count >= transferAmount) ?? slots[0]`, on slot
addresses. -/
def findSlotAddr (st : Store) (ss : List Nat) (tA : Int) : Option Nat :=
  ss.find? (fun a => decide (tA ≤ readSlotCount st a)) <|> ss.head?

/-- The shared bookkeeping mutation after an assignment, on the heap:
`slotInfo.count -= amount; itemInfo.totalCount -= amount;` filter the slot
out of the item's slot array when its count dropped to 0 (the source filters
by object identity, i.e. by address), and delete the map entry when the
total dropped to 0. -/
def commitH (tA : Int) (st : Store) (localInv : List (String × Nat))
    (itemId : String) (aSlot : Nat) : Store × List (String × Nat) :=
  match lookupA localInv itemId with
  | none => (st, localInv)
  | some itemAddr =>
    let st1 := writeH st aSlot (.slotC (readSlotIdx st aSlot) (readSlotCount st aSlot - tA))
    match readItem st1 itemAddr with
    | none => (st1, localInv)
    | some (t, ss) =>
      let ss2 := if readSlotCount st1 aSlot ≤ 0 then ss.filter (fun b => !(b == aSlot)) else ss
      let st2 := writeH st1 itemAddr (.itemC (t - tA) ss2)
      if t - tA ≤ 0 then (st2, eraseA localInv itemId) else (st2, localInv)

/-- `AvailableMaterial` in the reference model: the resolved definition plus
the captured reference to the item's slot array (slot-record addresses). -/
structure AvailableMaterialH where
  definition : WeightedScheduler.MaterialDefinition
  slotAddrs : List Nat
deriving Repr, DecidableEq

/-- `getAvailableMaterials` reading the running inventory through the heap. -/
def getAvailableMaterialsH (cfg : WeightedScheduler.Config)
    (machineType : WeightedScheduler.MachineTypeDefinition)
    (st : Store) (localInv : List (String × Nat)) : List AvailableMaterialH :=
  machineType.supportedMaterials.filterMap (fun matId =>
    match lookupA cfg.materials matId with
    | none => none
    | some matDef =>
      match lookupA localInv matDef.itemId with
      | none => none
      | some addr =>
        match readItem st addr with
        | none => none
        | some (t, ss) =>
          if t < matDef.minStock + cfg.transferAmount then none
          else some { definition := matDef, slotAddrs := ss })

/-- Total candidate weight, as in `weightedSelect`. -/
def totalWeightOfH (mats : List AvailableMaterialH) : ℚ :=
  mats.foldl (fun acc m => acc + m.definition.weight) 0

/-- The cumulative-weight walk, as in `weightedSelect`. -/
def selectLoopH (r : ℚ) : List AvailableMaterialH → ℚ → Option AvailableMaterialH
  | [], _ => none
  | m :: rest, cum =>
    let cum2 := cum + m.definition.weight
    if r < cum2 then some m else selectLoopH r rest cum2

/-- `weightedSelect` on reference-model candidates. -/
def weightedSelectH (mats : List AvailableMaterialH) (u : ℚ) : Option AvailableMaterialH :=
  match mats with
  | [] => none
  | [m] => some m
  | _ :: _ :: _ =>
    let random := u * totalWeightOfH mats
    match selectLoopH random mats 0 with
    | some m => some m
    | none => mats.head?

/-- The machine loop of `WeightedScheduler.schedule`, threading the heap. -/
def weightedScheduleHGo (cfg : WeightedScheduler.Config) (rand : Nat → ℚ) :
    List MachineState → Nat → Store → List (String × Nat) → List Assignment × Store
  | [], _, st, _ => ([], st)
  | machine :: rest, i, st, localInv =>
    if !machine.isEmpty then weightedScheduleHGo cfg rand rest (i + 1) st localInv
    else
      match lookupA cfg.machineTypes machine.type with
      | none => weightedScheduleHGo cfg rand rest (i + 1) st localInv
      | some machineType =>
        match weightedSelectH (getAvailableMaterialsH cfg machineType st localInv) (rand i) with
        | none => weightedScheduleHGo cfg rand rest (i + 1) st localInv
        | some selected =>
          match findSlotAddr st selected.slotAddrs cfg.transferAmount with
          | none => weightedScheduleHGo cfg rand rest (i + 1) st localInv
          | some aSlot =>
            let asg : Assignment :=
              { machineId := machine.id, targetChest := machine.inputChest,
                itemId := selected.definition.itemId, sourceSlot := readSlotIdx st aSlot,
                amount := cfg.transferAmount }
            let cm := commitH cfg.transferAmount st localInv selected.definition.itemId aSlot
            let out := weightedScheduleHGo cfg rand rest (i + 1) cm.1 cm.2
            (asg :: out.1, out.2)

/-- `WeightedScheduler.schedule` in the reference model: deep-copy the
caller's snapshot into fresh cells, then run the machine loop on the copy. -/
def weightedScheduleH (cfg : WeightedScheduler.Config) (rand : Nat → ℚ)
    (machines : List MachineState) (st : Store) (inventory : List (String × Nat)) :
    List Assignment × Store :=
  let cp := copyItems st inventory
  weightedScheduleHGo cfg rand machines 0 cp.1 cp.2

/-- `scoreRecipes` reading the running inventory through the heap. -/
def scoreRecipesH (cfg : StockBasedScheduler.Config)
    (recipes : List StockBasedScheduler.RecipeDefinition)
    (st : Store) (localInv : List (String × Nat)) :
    List StockBasedScheduler.ScoredRecipe :=
  recipes.map (fun recipe =>
    match cfg.stockTargets.find? (fun t => t.itemId == recipe.output) with
    | none => { recipe := recipe, urgency := 0 }
    | some target =>
      let currentCount : Int :=
        match lookupA localInv recipe.output with
        | none => 0
        | some addr => ((readItem st addr).map (·.1)).getD 0
      { recipe := recipe
        urgency := max 0 (((target.targetCount : ℚ) - (currentCount : ℚ)) /
          (target.targetCount : ℚ)) * target.weight })

/-- The candidate walk of `StockBasedScheduler.schedule`, threading the
heap. -/
def tryAssignRecipeH (cfg : StockBasedScheduler.Config) (machine : MachineState) :
    List StockBasedScheduler.ScoredRecipe → Store → List (String × Nat) →
      Option (Assignment × Store × List (String × Nat))
  | [], _, _ => none
  | sr :: rest, st, localInv =>
    if sr.urgency ≤ 0 then tryAssignRecipeH cfg machine rest st localInv
    else
      match lookupA localInv sr.recipe.input with
      | none => tryAssignRecipeH cfg machine rest st localInv
      | some inputAddr =>
        match readItem st inputAddr with
        | none => tryAssignRecipeH cfg machine rest st localInv
        | some (t, ss) =>
          if t < StockBasedScheduler.reserveFor cfg sr.recipe.input + cfg.transferAmount then
            tryAssignRecipeH cfg machine rest st localInv
          else
            match findSlotAddr st ss cfg.transferAmount with
            | none => tryAssignRecipeH cfg machine rest st localInv
            | some aSlot =>
              some ({ machineId := machine.id, targetChest := machine.inputChest,
                      itemId := sr.recipe.input, sourceSlot := readSlotIdx st aSlot,
                      amount := cfg.transferAmount },
                    commitH cfg.transferAmount st localInv sr.recipe.input aSlot)

/-- The machine loop of `StockBasedScheduler.schedule`, threading the heap. -/
def stockScheduleHGo (cfg : StockBasedScheduler.Config) :
    List MachineState → Store → List (String × Nat) → List Assignment × Store
  | [], st, _ => ([], st)
  | machine :: rest, st, localInv =>
    match lookupA cfg.recipes machine.type with
    | none => stockScheduleHGo cfg rest st localInv
    | some recipes =>
      if recipes.isEmpty then stockScheduleHGo cfg rest st localInv
      else
        let sorted := (scoreRecipesH cfg recipes st localInv).mergeSort
          StockBasedScheduler.scoredLE
        match tryAssignRecipeH cfg machine sorted st localInv with
        | none => stockScheduleHGo cfg rest st localInv
        | some (asg, st2, localInv2) =>
          let out := stockScheduleHGo cfg rest st2 localInv2
          (asg :: out.1, out.2)

/-- `StockBasedScheduler.schedule` in the reference model. -/
def stockScheduleH (cfg : StockBasedScheduler.Config) (machines : List MachineState)
    (st : Store) (inventory : List (String × Nat)) : List Assignment × Store :=
  let cp := copyItems st inventory
  stockScheduleHGo cfg (machines.filter (·.isEmpty)) cp.1 cp.2

end RefModel

/-! ## Association-list lemmas -/

theorem lookupA_nil {α : Type} (x : String) : lookupA ([] : List (String × α)) x = none :=
  rfl

theorem lookupA_cons {α : Type} (q : String × α) (t : List (String × α)) (x : String) :
    lookupA (q :: t) x = if q.1 = x then some q.2 else lookupA t x := by
  unfold lookupA
  by_cases hqx : q.1 = x
  · rw [List.find?_cons_of_pos _ (by simpa using hqx)]
    simp [hqx]
  · rw [List.find?_cons_of_neg _ (by simpa using hqx)]
    simp [hqx]

theorem setA_cons {α : Type} (q : String × α) (t : List (String × α)) (k : String) (v : α) :
    setA (q :: t) k v = (if q.1 = k then (k, v) else q) :: setA t k v := by
  by_cases h : q.1 = k <;> simp [setA, h]

theorem eraseA_cons {α : Type} (q : String × α) (t : List (String × α)) (k : String) :
    eraseA (q :: t) k = if q.1 = k then eraseA t k else q :: eraseA t k := by
  by_cases h : q.1 = k <;> simp [eraseA, List.filter_cons, h]

theorem lookupA_mem {α : Type} {l : List (String × α)} {k : String} {v : α}
    (h : lookupA l k = some v) : (k, v) ∈ l := by
  induction l with
  | nil => simp [lookupA_nil] at h
  | cons q t ih =>
    rw [lookupA_cons] at h
    by_cases hq : q.1 = k
    · rw [if_pos hq] at h
      have hqe : q = (k, v) := by cases q; simp_all
      rw [← hqe]
      exact List.mem_cons_self _ _
    · rw [if_neg hq] at h
      exact List.mem_cons_of_mem _ (ih h)

theorem lookupA_setA_of_ne {α : Type} {l : List (String × α)} {k x : String} {v : α}
    (h : x ≠ k) : lookupA (setA l k v) x = lookupA l x := by
  induction l with
  | nil => rfl
  | cons q t ih =>
    rw [setA_cons, lookupA_cons, lookupA_cons]
    by_cases hqk : q.1 = k
    · rw [if_pos hqk, if_neg (by simpa using (Ne.symm h)), if_neg (by rw [hqk]; exact Ne.symm h)]
      exact ih
    · rw [if_neg hqk]
      by_cases hqx : q.1 = x
      · rw [if_pos hqx, if_pos hqx]
      · rw [if_neg hqx, if_neg hqx]
        exact ih

theorem lookupA_setA_self {α : Type} {l : List (String × α)} {k : String} {v w : α}
    (h : lookupA l k = some w) : lookupA (setA l k v) k = some v := by
  induction l with
  | nil => simp [lookupA_nil] at h
  | cons q t ih =>
    rw [lookupA_cons] at h
    rw [setA_cons, lookupA_cons]
    by_cases hqk : q.1 = k
    · rw [if_pos hqk]
      simp
    · rw [if_neg hqk] at h ⊢
      rw [if_neg hqk]
      exact ih h

theorem lookupA_eraseA_self {α : Type} {l : List (String × α)} {k : String} :
    lookupA (eraseA l k) k = none := by
  induction l with
  | nil => rfl
  | cons q t ih =>
    rw [eraseA_cons]
    by_cases hqk : q.1 = k
    · rw [if_pos hqk]; exact ih
    · rw [if_neg hqk, lookupA_cons, if_neg hqk]; exact ih

theorem lookupA_eraseA_of_ne {α : Type} {l : List (String × α)} {k x : String}
    (h : x ≠ k) : lookupA (eraseA l k) x = lookupA l x := by
  induction l with
  | nil => rfl
  | cons q t ih =>
    rw [eraseA_cons, lookupA_cons]
    by_cases hqk : q.1 = k
    · rw [if_pos hqk, if_neg (by rw [hqk]; exact Ne.symm h)]
      exact ih
    · rw [if_neg hqk, lookupA_cons]
      by_cases hqx : q.1 = x
      · rw [if_pos hqx, if_pos hqx]
      · rw [if_neg hqx, if_neg hqx]
        exact ih

theorem mem_setA {α : Type} {l : List (String × α)} {k : String} {v : α} {p : String × α}
    (h : p ∈ setA l k v) : p ∈ l ∨ p = (k, v) := by
  unfold setA at h
  rcases List.mem_map.1 h with ⟨q, hq, hqe⟩
  by_cases hqk : q.1 = k
  · right
    rw [if_pos (by simpa using hqk)] at hqe
    exact hqe.symm
  · left
    rw [if_neg (by simpa using hqk)] at hqe
    exact hqe ▸ hq

theorem mem_eraseA {α : Type} {l : List (String × α)} {k : String} {p : String × α}
    (h : p ∈ eraseA l k) : p ∈ l :=
  List.mem_of_mem_filter h

/-! ## Deep-copy and bookkeeping lemmas -/

theorem deepCopyInv_eq (inv : Inv) : deepCopyInv inv = inv := by
  unfold deepCopyInv
  have : ∀ p : String × InventoryItemInfo,
      (p.1, ({ totalCount := p.2.totalCount,
               slots := p.2.slots.map (fun s => { slot := s.slot, count := s.count }) } :
        InventoryItemInfo)) = p := by
    intro p
    have hs : p.2.slots.map (fun s => ({ slot := s.slot, count := s.count } : SlotInfo))
        = p.2.slots := by
      have : ∀ s : SlotInfo, ({ slot := s.slot, count := s.count } : SlotInfo) = s := by
        intro s; rfl
      simp [this]
    simp [hs]
  simp [this]

theorem deepCopyInvE_eq (inv : ProcessingEngine.InvE) :
    ProcessingEngine.deepCopyInvE inv = inv := by
  unfold ProcessingEngine.deepCopyInvE
  have : ∀ p : String × ProcessingEngine.ItemInfo,
      (p.1, ({ totalCount := p.2.totalCount, slots := p.2.slots } :
        ProcessingEngine.ItemInfo)) = p := by
    intro p; rfl
  simp [this]

theorem applyTransferToItem_totalCount (info : InventoryItemInfo) (idx : Nat) (a : Int) :
    (applyTransferToItem info idx a).totalCount = info.totalCount - a := by
  unfold applyTransferToItem
  cases info.slots.get? idx <;> simp

theorem commit_lookupA_of_ne {inv : Inv} {itemId x : String} {idx : Nat} {a : Int}
    (h : x ≠ itemId) :
    lookupA (commitAssignment inv itemId idx a) x = lookupA inv x := by
  unfold commitAssignment
  cases lookupA inv itemId with
  | none => rfl
  | some info =>
    by_cases hz : (applyTransferToItem info idx a).totalCount ≤ 0
    · simp only [hz, if_pos]
      exact lookupA_eraseA_of_ne h
    · simp only [hz, if_neg, ite_false]
      exact lookupA_setA_of_ne h

theorem commit_lookupTotal_self {inv : Inv} {itemId : String} {idx : Nat} {a : Int}
    {e : InventoryItemInfo} (h : lookupA inv itemId = some e) :
    lookupTotal (commitAssignment inv itemId idx a) itemId =
      if e.totalCount - a ≤ 0 then 0 else e.totalCount - a := by
  unfold commitAssignment
  rw [h]
  by_cases hz : (applyTransferToItem e idx a).totalCount ≤ 0
  · rw [applyTransferToItem_totalCount] at hz
    simp only [applyTransferToItem_totalCount, hz, if_pos]
    simp [lookupTotal, lookupA_eraseA_self]
  · rw [applyTransferToItem_totalCount] at hz
    simp only [applyTransferToItem_totalCount, hz, if_neg, ite_false]
    have := @lookupA_setA_self _ inv itemId (applyTransferToItem e idx a) e h
    simp [lookupTotal, this, applyTransferToItem_totalCount]

theorem commit_nonneg {inv : Inv} {itemId : String} {idx : Nat} {a : Int}
    {e : InventoryItemInfo} (hinv : ∀ p ∈ inv, 0 ≤ p.2.totalCount)
    (h : lookupA inv itemId = some e) :
    ∀ p ∈ commitAssignment inv itemId idx a, 0 ≤ p.2.totalCount := by
  intro p hp
  unfold commitAssignment at hp
  rw [h] at hp
  simp only at hp
  by_cases hz : (applyTransferToItem e idx a).totalCount ≤ 0
  · rw [if_pos hz] at hp
    exact hinv p (mem_eraseA hp)
  · rw [if_neg hz] at hp
    rcases mem_setA hp with hmem | heq
    · exact hinv p hmem
    · rw [heq]
      rw [applyTransferToItem_totalCount] at hz
      simp only [applyTransferToItem_totalCount]
      omega

theorem lookupTotal_nonneg {inv : Inv} (hinv : ∀ p ∈ inv, 0 ≤ p.2.totalCount)
    (x : String) : 0 ≤ lookupTotal inv x := by
  unfold lookupTotal
  cases h : lookupA inv x with
  | none => simp
  | some e =>
    have := hinv _ (lookupA_mem h)
    simpa using this

theorem assignedTotal_nil (x : String) : assignedTotal [] x = 0 := rfl

theorem assignedTotal_cons (asg : Assignment) (l : List Assignment) (x : String) :
    assignedTotal (asg :: l) x =
      (if asg.itemId = x then asg.amount else 0) + assignedTotal l x := by
  unfold assignedTotal
  by_cases h : asg.itemId = x
  · simp [List.filter_cons, h]
  · simp [List.filter_cons, h]

/-! ## Weighted-selection lemmas -/

namespace WeightedScheduler

theorem foldl_weight_shift (c : ℚ) (l : List AvailableMaterial) :
    l.foldl (fun acc m => acc + m.definition.weight) c = c + totalWeightOf l := by
  induction l generalizing c with
  | nil => simp [totalWeightOf]
  | cons m t ih =>
    unfold totalWeightOf
    simp only [List.foldl_cons]
    rw [ih (c + m.definition.weight), ih (0 + m.definition.weight)]
    ring

theorem totalWeightOf_cons (m : AvailableMaterial) (l : List AvailableMaterial) :
    totalWeightOf (m :: l) = m.definition.weight + totalWeightOf l := by
  calc totalWeightOf (m :: l)
      = l.foldl (fun acc x => acc + x.definition.weight) (0 + m.definition.weight) := rfl
    _ = (0 + m.definition.weight) + totalWeightOf l := foldl_weight_shift _ l
    _ = m.definition.weight + totalWeightOf l := by ring

theorem selectLoop_mem {r : ℚ} {l : List AvailableMaterial} {cum : ℚ}
    {m : AvailableMaterial} (h : selectLoop r l cum = some m) : m ∈ l := by
  induction l generalizing cum with
  | nil => simp [selectLoop] at h
  | cons a t ih =>
    unfold selectLoop at h
    by_cases hr : r < cum + a.definition.weight
    · simp only [hr, if_pos] at h
      cases h
      exact List.mem_cons_self _ _
    · simp only [hr, if_neg, ite_false] at h
      exact List.mem_cons_of_mem _ (ih h)

theorem selectLoop_pos {r : ℚ} {l : List AvailableMaterial} {cum : ℚ}
    {m : AvailableMaterial} (hcum : cum ≤ r) (h : selectLoop r l cum = some m) :
    0 < m.definition.weight := by
  induction l generalizing cum with
  | nil => simp [selectLoop] at h
  | cons a t ih =>
    unfold selectLoop at h
    by_cases hr : r < cum + a.definition.weight
    · simp only [hr, if_pos] at h
      cases h
      linarith
    · simp only [hr, if_neg, ite_false] at h
      exact ih (by linarith [not_lt.1 hr]) h

theorem selectLoop_none {r : ℚ} {l : List AvailableMaterial} {cum : ℚ}
    (h : selectLoop r l cum = none) (hne : l ≠ []) : cum + totalWeightOf l ≤ r := by
  induction l generalizing cum with
  | nil => exact absurd rfl hne
  | cons a t ih =>
    unfold selectLoop at h
    by_cases hr : r < cum + a.definition.weight
    · simp [hr] at h
    · simp only [hr, if_neg, ite_false] at h
      rw [totalWeightOf_cons]
      cases t with
      | nil =>
        simp [totalWeightOf]
        linarith [not_lt.1 hr]
      | cons b t2 =>
        have := ih h (by simp)
        linarith

theorem weightedSelect_mem {mats : List AvailableMaterial} {u : ℚ}
    {m : AvailableMaterial} (h : weightedSelect mats u = some m) : m ∈ mats := by
  match mats with
  | [] => simp [weightedSelect] at h
  | [a] =>
    simp [weightedSelect] at h
    simp [h]
  | a :: b :: t =>
    unfold weightedSelect at h
    simp only at h
    cases hsel : selectLoop (u * totalWeightOf (a :: b :: t)) (a :: b :: t) 0 with
    | some m2 =>
      rw [hsel] at h
      cases h
      exact selectLoop_mem hsel
    | none =>
      rw [hsel] at h
      simp at h
      simp [h]

theorem mem_getAvailableMaterials {cfg : Config} {mt : MachineTypeDefinition}
    {inv : Inv} {am : AvailableMaterial} (h : am ∈ getAvailableMaterials cfg mt inv) :
    (∃ matId ∈ mt.supportedMaterials, lookupA cfg.materials matId = some am.definition) ∧
    ∃ e, lookupA inv am.definition.itemId = some e ∧
      am.definition.minStock + cfg.transferAmount ≤ e.totalCount ∧ am.slots = e.slots := by
  unfold getAvailableMaterials at h
  rcases List.mem_filterMap.1 h with ⟨matId, hmem, heq⟩
  cases hm : lookupA cfg.materials matId with
  | none => rw [hm] at heq; simp at heq
  | some matDef =>
    rw [hm] at heq
    simp only at heq
    cases hi : lookupA inv matDef.itemId with
    | none => rw [hi] at heq; simp at heq
    | some e =>
      rw [hi] at heq
      simp only at heq
      by_cases hlt : e.totalCount < matDef.minStock + cfg.transferAmount
      · rw [if_pos hlt] at heq; simp at heq
      · rw [if_neg hlt] at heq
        injection heq with h2
        subst h2
        refine ⟨⟨matId, hmem, hm⟩, e, hi, by dsimp only; omega, rfl⟩

end WeightedScheduler

namespace EngineScheduler

theorem foldl_weight_shift_e (c : ℚ) (l : List AvailableMaterial) :
    l.foldl (fun acc m => acc + m.config.weight) c = c + totalWeightOf l := by
  induction l generalizing c with
  | nil => simp [totalWeightOf]
  | cons m t ih =>
    unfold totalWeightOf
    simp only [List.foldl_cons]
    rw [ih (c + m.config.weight), ih (0 + m.config.weight)]
    ring

theorem totalWeightOf_cons_e (m : AvailableMaterial) (l : List AvailableMaterial) :
    totalWeightOf (m :: l) = m.config.weight + totalWeightOf l := by
  calc totalWeightOf (m :: l)
      = l.foldl (fun acc x => acc + x.config.weight) (0 + m.config.weight) := rfl
    _ = (0 + m.config.weight) + totalWeightOf l := foldl_weight_shift_e _ l
    _ = m.config.weight + totalWeightOf l := by ring

theorem selectLoop_mem_e {r : ℚ} {l : List AvailableMaterial} {cum : ℚ}
    {m : AvailableMaterial} (h : selectLoop r l cum = some m) : m ∈ l := by
  induction l generalizing cum with
  | nil => simp [selectLoop] at h
  | cons a t ih =>
    unfold selectLoop at h
    by_cases hr : r < cum + a.config.weight
    · simp only [hr, if_pos] at h
      cases h
      exact List.mem_cons_self _ _
    · simp only [hr, if_neg, ite_false] at h
      exact List.mem_cons_of_mem _ (ih h)

theorem selectLoop_pos_e {r : ℚ} {l : List AvailableMaterial} {cum : ℚ}
    {m : AvailableMaterial} (hcum : cum ≤ r) (h : selectLoop r l cum = some m) :
    0 < m.config.weight := by
  induction l generalizing cum with
  | nil => simp [selectLoop] at h
  | cons a t ih =>
    unfold selectLoop at h
    by_cases hr : r < cum + a.config.weight
    · simp only [hr, if_pos] at h
      cases h
      linarith
    · simp only [hr, if_neg, ite_false] at h
      exact ih (by linarith [not_lt.1 hr]) h

theorem selectLoop_none_e {r : ℚ} {l : List AvailableMaterial} {cum : ℚ}
    (h : selectLoop r l cum = none) (hne : l ≠ []) : cum + totalWeightOf l ≤ r := by
  induction l generalizing cum with
  | nil => exact absurd rfl hne
  | cons a t ih =>
    unfold selectLoop at h
    by_cases hr : r < cum + a.config.weight
    · simp [hr] at h
    · simp only [hr, if_neg, ite_false] at h
      rw [totalWeightOf_cons_e]
      cases t with
      | nil =>
        simp [totalWeightOf]
        linarith [not_lt.1 hr]
      | cons b t2 =>
        have := ih h (by simp)
        linarith

theorem weightedSelect_mem_e {mats : List AvailableMaterial} {u : ℚ}
    {m : AvailableMaterial} (h : weightedSelect mats u = some m) : m ∈ mats := by
  match mats with
  | [] => simp [weightedSelect] at h
  | [a] =>
    simp [weightedSelect] at h
    simp [h]
  | a :: b :: t =>
    unfold weightedSelect at h
    simp only at h
    cases hsel : selectLoop (u * totalWeightOf (a :: b :: t)) (a :: b :: t) 0 with
    | some m2 =>
      rw [hsel] at h
      cases h
      exact selectLoop_mem_e hsel
    | none =>
      rw [hsel] at h
      simp at h
      simp [h]

theorem mem_availableMaterials {cfg : Config} {uType : UneartherType}
    {invC : List (String × ProcessingEngine.ItemInfo)} {stackSize : Int}
    {am : AvailableMaterial} (h : am ∈ availableMaterials cfg uType invC stackSize) :
    (∃ matId ∈ uType.supportedMaterials, lookupA cfg.materials matId = some am.config) ∧
    ∃ e, lookupA invC am.config.itemId = some e ∧
      am.config.minStock + stackSize ≤ e.totalCount := by
  unfold availableMaterials at h
  rcases List.mem_filterMap.1 h with ⟨matId, hmem, heq⟩
  cases hm : lookupA cfg.materials matId with
  | none => rw [hm] at heq; simp at heq
  | some matConfig =>
    rw [hm] at heq
    simp only at heq
    cases hi : lookupA invC matConfig.itemId with
    | none => rw [hi] at heq; simp at heq
    | some e =>
      rw [hi] at heq
      simp only at heq
      by_cases hlt : e.totalCount < matConfig.minStock + stackSize
      · rw [if_pos hlt] at heq; simp at heq
      · rw [if_neg hlt] at heq
        injection heq with h2
        subst h2
        refine ⟨⟨matId, hmem, hm⟩, e, hi, by dsimp only; omega⟩

end EngineScheduler

/-! ## Step-shape lemmas for the two schedulers -/

namespace WeightedScheduler

theorem scheduleGo_cons_w (cfg : Config) (rand : Nat → ℚ) (machine : MachineState)
    (rest : List MachineState) (i : Nat) (inv : Inv) :
    scheduleGo cfg rand (machine :: rest) i inv = scheduleGo cfg rand rest (i + 1) inv ∨
    (machine.isEmpty = true ∧
     ∃ (selected : AvailableMaterial) (slotInfo : SlotInfo),
       (∃ mt, lookupA cfg.machineTypes machine.type = some mt ∧
         weightedSelect (getAvailableMaterials cfg mt inv) (rand i) = some selected) ∧
       scheduleGo cfg rand (machine :: rest) i inv =
         { machineId := machine.id, targetChest := machine.inputChest,
           itemId := selected.definition.itemId, sourceSlot := slotInfo.slot,
           amount := cfg.transferAmount } ::
         scheduleGo cfg rand rest (i + 1)
           (commitAssignment inv selected.definition.itemId
             (chooseSlotIdx selected.slots cfg.transferAmount) cfg.transferAmount)) := by
  cases hempty : machine.isEmpty with
  | false => left; simp [scheduleGo, hempty]
  | true =>
    cases hmt : lookupA cfg.machineTypes machine.type with
    | none => left; simp [scheduleGo, hempty, hmt]
    | some mt =>
      cases hsel : weightedSelect (getAvailableMaterials cfg mt inv) (rand i) with
      | none => left; simp [scheduleGo, hempty, hmt, hsel]
      | some selected =>
        cases hslot : selected.slots.find? (fun s => decide (cfg.transferAmount ≤ s.count))
            <|> selected.slots.head? with
        | none => left; simp [scheduleGo, hempty, hmt, hsel, hslot]
        | some slotInfo =>
          right
          refine ⟨rfl, selected, slotInfo, ⟨mt, rfl, hsel⟩, ?_⟩
          simp [scheduleGo, hempty, hmt, hsel, hslot]

end WeightedScheduler

namespace StockBasedScheduler

theorem reserveFor_nonneg {cfg : Config}
    (hRes : ∀ t ∈ cfg.stockTargets, 0 ≤ t.minReserve.getD 0) (input : String) :
    0 ≤ reserveFor cfg input := by
  unfold reserveFor
  cases hf : cfg.stockTargets.find? (fun t => t.itemId == input) with
  | none => simp
  | some t =>
    have ht := hRes t (List.mem_of_find?_eq_some hf)
    cases hr : t.minReserve with
    | none => simp [hr]
    | some r =>
      rw [hr] at ht
      simpa [hr] using ht

theorem tryAssignRecipe_spec {cfg : Config} {machine : MachineState} :
    ∀ {scored : List ScoredRecipe} {inv : Inv} {asg : Assignment} {inv2 : Inv},
      tryAssignRecipe cfg machine scored inv = some (asg, inv2) →
      asg.machineId = machine.id ∧ asg.targetChest = machine.inputChest ∧
      asg.amount = cfg.transferAmount ∧
      ∃ sr ∈ scored, 0 < sr.urgency ∧ asg.itemId = sr.recipe.input ∧
        ∃ e, lookupA inv sr.recipe.input = some e ∧
          reserveFor cfg sr.recipe.input + cfg.transferAmount ≤ e.totalCount ∧
          inv2 = commitAssignment inv sr.recipe.input
            (chooseSlotIdx e.slots cfg.transferAmount) cfg.transferAmount := by
  intro scored
  induction scored with
  | nil => intro inv asg inv2 h; simp [tryAssignRecipe] at h
  | cons sr rest ih =>
    intro inv asg inv2 h
    unfold tryAssignRecipe at h
    by_cases hu : sr.urgency ≤ 0
    · rw [if_pos hu] at h
      rcases ih h with ⟨h1, h2, h3, sr2, hmem, hrest⟩
      exact ⟨h1, h2, h3, sr2, List.mem_cons_of_mem _ hmem, hrest⟩
    · rw [if_neg hu] at h
      cases hin : lookupA inv sr.recipe.input with
      | none =>
        rw [hin] at h
        rcases ih h with ⟨h1, h2, h3, sr2, hmem, hrest⟩
        exact ⟨h1, h2, h3, sr2, List.mem_cons_of_mem _ hmem, hrest⟩
      | some inputInfo =>
        rw [hin] at h
        simp only at h
        by_cases hreq : inputInfo.totalCount < reserveFor cfg sr.recipe.input + cfg.transferAmount
        · rw [if_pos hreq] at h
          rcases ih h with ⟨h1, h2, h3, sr2, hmem, hrest⟩
          exact ⟨h1, h2, h3, sr2, List.mem_cons_of_mem _ hmem, hrest⟩
        · rw [if_neg hreq] at h
          cases hslot : inputInfo.slots.find? (fun s => decide (cfg.transferAmount ≤ s.count))
              <|> inputInfo.slots.head? with
          | none =>
            rw [hslot] at h
            rcases ih h with ⟨h1, h2, h3, sr2, hmem, hrest⟩
            exact ⟨h1, h2, h3, sr2, List.mem_cons_of_mem _ hmem, hrest⟩
          | some slotInfo =>
            rw [hslot] at h
            injection h with hpair
            injection hpair with hasg hinv2
            subst hasg
            refine ⟨rfl, rfl, rfl, sr, List.mem_cons_self _ _, not_le.1 hu, rfl,
              inputInfo, hin, by omega, hinv2.symm⟩

theorem scheduleGo_cons_s (cfg : Config) (machine : MachineState)
    (rest : List MachineState) (inv : Inv) :
    scheduleGo cfg (machine :: rest) inv = scheduleGo cfg rest inv ∨
    ∃ (recipes : List RecipeDefinition) (asg : Assignment) (inv2 : Inv),
      lookupA cfg.recipes machine.type = some recipes ∧
      tryAssignRecipe cfg machine ((scoreRecipes cfg recipes inv).mergeSort scoredLE) inv =
        some (asg, inv2) ∧
      scheduleGo cfg (machine :: rest) inv = asg :: scheduleGo cfg rest inv2 := by
  cases hr : lookupA cfg.recipes machine.type with
  | none => left; simp [scheduleGo, hr]
  | some recipes =>
    by_cases hempty : recipes.isEmpty
    · left; simp [scheduleGo, hr, hempty]
    · cases htry : tryAssignRecipe cfg machine
          ((scoreRecipes cfg recipes inv).mergeSort scoredLE) inv with
      | none => left; simp [scheduleGo, hr, hempty, htry]
      | some pair =>
        right
        refine ⟨recipes, pair.1, pair.2, rfl, by rw [htry], ?_⟩
        simp [scheduleGo, hr, hempty, htry]

end StockBasedScheduler

/-! ## Claim C1: conservation / no over-commitment -/

theorem weighted_scheduleGo_conserve (cfg : WeightedScheduler.Config) (rand : Nat → ℚ)
    (hMin : ∀ p ∈ cfg.materials, 0 ≤ p.2.minStock) :
    ∀ (machines : List MachineState) (i : Nat) (inv : Inv),
      (∀ p ∈ inv, 0 ≤ p.2.totalCount) →
      ∀ x, assignedTotal (WeightedScheduler.scheduleGo cfg rand machines i inv) x ≤
        lookupTotal inv x := by
  intro machines
  induction machines with
  | nil =>
    intro i inv hinv x
    simpa [WeightedScheduler.scheduleGo, assignedTotal_nil] using lookupTotal_nonneg hinv x
  | cons machine rest ih =>
    intro i inv hinv x
    rcases WeightedScheduler.scheduleGo_cons_w cfg rand machine rest i inv with
      heq | ⟨_, selected, slotInfo, ⟨mt, _, hsel⟩, heq⟩
    · rw [heq]
      exact ih (i + 1) inv hinv x
    · rw [heq, assignedTotal_cons]
      dsimp only
      have hmem := WeightedScheduler.weightedSelect_mem hsel
      rcases WeightedScheduler.mem_getAvailableMaterials hmem with
        ⟨⟨matId, _, hmdef⟩, e, he, hbound, _⟩
      have hminnn : 0 ≤ selected.definition.minStock := hMin _ (lookupA_mem hmdef)
      have htab : cfg.transferAmount ≤ e.totalCount := by omega
      have hinv2 := @commit_nonneg inv selected.definition.itemId
        (chooseSlotIdx selected.slots cfg.transferAmount) cfg.transferAmount e hinv he
      have hrest := ih (i + 1) _ hinv2 x
      by_cases hx : selected.definition.itemId = x
      · rw [if_pos hx]
        subst hx
        rw [commit_lookupTotal_self he] at hrest
        have hlook : lookupTotal inv selected.definition.itemId = e.totalCount := by
          simp [lookupTotal, he]
        rw [hlook]
        by_cases hz : e.totalCount - cfg.transferAmount ≤ 0
        · rw [if_pos hz] at hrest
          omega
        · rw [if_neg hz] at hrest
          omega
      · rw [if_neg hx]
        have hne : x ≠ selected.definition.itemId := fun hc => hx hc.symm
        rw [show lookupTotal (commitAssignment inv selected.definition.itemId
            (chooseSlotIdx selected.slots cfg.transferAmount)
            cfg.transferAmount) x = lookupTotal inv x by
          simp [lookupTotal, commit_lookupA_of_ne hne]] at hrest
        omega

theorem stock_scheduleGo_conserve (cfg : StockBasedScheduler.Config)
    (hRes : ∀ t ∈ cfg.stockTargets, 0 ≤ t.minReserve.getD 0) :
    ∀ (machines : List MachineState) (inv : Inv),
      (∀ p ∈ inv, 0 ≤ p.2.totalCount) →
      ∀ x, assignedTotal (StockBasedScheduler.scheduleGo cfg machines inv) x ≤
        lookupTotal inv x := by
  intro machines
  induction machines with
  | nil =>
    intro inv hinv x
    simpa [StockBasedScheduler.scheduleGo, assignedTotal_nil] using lookupTotal_nonneg hinv x
  | cons machine rest ih =>
    intro inv hinv x
    rcases StockBasedScheduler.scheduleGo_cons_s cfg machine rest inv with
      heq | ⟨recipes, asg, inv2, _, htry, heq⟩
    · rw [heq]
      exact ih inv hinv x
    · rw [heq, assignedTotal_cons]
      rcases StockBasedScheduler.tryAssignRecipe_spec htry with
        ⟨_, _, hamount, sr, _, _, hitem, e, he, hbound, hinv2eq⟩
      have hres := StockBasedScheduler.reserveFor_nonneg hRes sr.recipe.input
      have htab : cfg.transferAmount ≤ e.totalCount := by omega
      subst hinv2eq
      have hinvnn := @commit_nonneg inv sr.recipe.input
        (chooseSlotIdx e.slots cfg.transferAmount) cfg.transferAmount e hinv he
      have hrest := ih _ hinvnn x
      by_cases hx : asg.itemId = x
      · rw [if_pos hx]
        rw [hitem] at hx
        subst hx
        rw [commit_lookupTotal_self he] at hrest
        have hlook : lookupTotal inv sr.recipe.input = e.totalCount := by
          simp [lookupTotal, he]
        rw [hamount, hlook]
        by_cases hz : e.totalCount - cfg.transferAmount ≤ 0
        · rw [if_pos hz] at hrest
          omega
        · rw [if_neg hz] at hrest
          omega
      · rw [if_neg hx]
        have hne : x ≠ sr.recipe.input := by
          intro hc
          exact hx (by rw [hitem, hc])
        rw [show lookupTotal (commitAssignment inv sr.recipe.input
            (chooseSlotIdx e.slots cfg.transferAmount)
            cfg.transferAmount) x = lookupTotal inv x by
          simp [lookupTotal, commit_lookupA_of_ne hne]] at hrest
        omega

/-- C1.  Conservation / no over-commitment: for a single call to either
policy's `schedule(machines, inventory)`, and for every item identity `x`,
the sum of `amount` over all emitted assignments whose `itemId` is `x` never
exceeds the `totalCount` recorded for `x` in the inventory snapshot passed
in (with the documented configuration invariants `minStock ≥ 0`,
`minReserve ≥ 0` and a snapshot with non-negative totals). -/
theorem scheduling_conservation :
    (∀ (cfg : WeightedScheduler.Config) (rand : Nat → ℚ)
       (machines : List MachineState) (inventory : Inv),
      (∀ p ∈ cfg.materials, 0 ≤ p.2.minStock) →
      (∀ p ∈ inventory, 0 ≤ p.2.totalCount) →
      ∀ x, assignedTotal (WeightedScheduler.schedule cfg rand machines inventory) x ≤
        lookupTotal inventory x) ∧
    (∀ (cfg : StockBasedScheduler.Config) (machines : List MachineState) (inventory : Inv),
      (∀ t ∈ cfg.stockTargets, 0 ≤ t.minReserve.getD 0) →
      (∀ p ∈ inventory, 0 ≤ p.2.totalCount) →
      ∀ x, assignedTotal (StockBasedScheduler.schedule cfg machines inventory) x ≤
        lookupTotal inventory x) := by
  constructor
  · intro cfg rand machines inventory hMin hinv x
    unfold WeightedScheduler.schedule
    rw [deepCopyInv_eq]
    exact weighted_scheduleGo_conserve cfg rand hMin machines 0 inventory hinv x
  · intro cfg machines inventory hRes hinv x
    unfold StockBasedScheduler.schedule
    rw [deepCopyInv_eq]
    exact stock_scheduleGo_conserve cfg hRes (machines.filter (·.isEmpty)) inventory hinv x

/-- Witness for C1: two empty hammer machines compete for 130 sand
(`minStock = 0`, `transferAmount = 64`), and a stock-based press chain runs
on 100 cobblestone; in both cases the assigned total for the item stays
within its snapshot total. -/
theorem scheduling_conservation_witness :
    assignedTotal
      (WeightedScheduler.schedule
        { materials := [("sand", ⟨"sand", "minecraft:sand", 0, 1⟩)],
          machineTypes := [("hammer", ⟨["sand"]⟩)], transferAmount := 64 }
        (fun _ => 0)
        [⟨"m1", "hammer", "c1", true⟩, ⟨"m2", "hammer", "c2", true⟩]
        [("minecraft:sand", ⟨130, [⟨1, 130⟩]⟩)]) "minecraft:sand" ≤
      lookupTotal [("minecraft:sand", ⟨130, [⟨1, 130⟩]⟩)] "minecraft:sand" ∧
    assignedTotal
      (StockBasedScheduler.schedule
        { recipes := [("press", [⟨"minecraft:cobblestone", "minecraft:gravel"⟩])],
          stockTargets := [⟨"minecraft:gravel", 8192, 1, none⟩], transferAmount := 64 }
        [⟨"p1", "press", "c1", true⟩, ⟨"p2", "press", "c2", true⟩]
        [("minecraft:cobblestone", ⟨100, [⟨1, 100⟩]⟩)]) "minecraft:cobblestone" ≤
      lookupTotal [("minecraft:cobblestone", ⟨100, [⟨1, 100⟩]⟩)] "minecraft:cobblestone" :=
  ⟨scheduling_conservation.1 _ _ _ _ (by decide) (by decide) _,
   scheduling_conservation.2 _ _ _ (by decide) (by decide) _⟩

/-! ## Claim C10: invariants of the scheduling output -/

theorem weighted_scheduleGo_sound (cfg : WeightedScheduler.Config) (rand : Nat → ℚ) :
    ∀ (machines : List MachineState) (i : Nat) (inv : Inv),
      ∀ asg ∈ WeightedScheduler.scheduleGo cfg rand machines i inv,
        (∃ m ∈ machines, m.isEmpty = true ∧ asg.machineId = m.id ∧
          asg.targetChest = m.inputChest) ∧
        asg.amount = cfg.transferAmount := by
  intro machines
  induction machines with
  | nil => intro i inv asg h; simp [WeightedScheduler.scheduleGo] at h
  | cons machine rest ih =>
    intro i inv asg h
    rcases WeightedScheduler.scheduleGo_cons_w cfg rand machine rest i inv with
      heq | ⟨hempty, selected, slotInfo, _, heq⟩
    · rw [heq] at h
      rcases ih (i + 1) inv asg h with ⟨⟨m, hm, hrest⟩, hamount⟩
      exact ⟨⟨m, List.mem_cons_of_mem _ hm, hrest⟩, hamount⟩
    · rw [heq] at h
      rcases List.mem_cons.1 h with hhead | htail
      · subst hhead
        exact ⟨⟨machine, List.mem_cons_self _ _, hempty, rfl, rfl⟩, rfl⟩
      · rcases ih (i + 1) _ asg htail with ⟨⟨m, hm, hrest⟩, hamount⟩
        exact ⟨⟨m, List.mem_cons_of_mem _ hm, hrest⟩, hamount⟩

theorem weighted_scheduleGo_pairwise (cfg : WeightedScheduler.Config) (rand : Nat → ℚ) :
    ∀ (machines : List MachineState) (i : Nat) (inv : Inv),
      (machines.map (·.id)).Nodup →
      (WeightedScheduler.scheduleGo cfg rand machines i inv).Pairwise
        (fun a b => a.machineId ≠ b.machineId) := by
  intro machines
  induction machines with
  | nil => intro i inv _; simp [WeightedScheduler.scheduleGo]
  | cons machine rest ih =>
    intro i inv hnd
    rw [List.map_cons, List.nodup_cons] at hnd
    rcases WeightedScheduler.scheduleGo_cons_w cfg rand machine rest i inv with
      heq | ⟨_, selected, slotInfo, _, heq⟩
    · rw [heq]
      exact ih (i + 1) inv hnd.2
    · rw [heq]
      refine List.Pairwise.cons ?_ (ih (i + 1) _ hnd.2)
      intro b hb
      rcases (weighted_scheduleGo_sound cfg rand rest (i + 1) _ b hb).1 with ⟨m, hm, _, hid, _⟩
      dsimp only
      rw [hid]
      intro hc
      exact hnd.1 (hc ▸ List.mem_map_of_mem (·.id) hm)

theorem stock_scheduleGo_sound (cfg : StockBasedScheduler.Config) :
    ∀ (machines : List MachineState) (inv : Inv),
      ∀ asg ∈ StockBasedScheduler.scheduleGo cfg machines inv,
        (∃ m ∈ machines, asg.machineId = m.id ∧ asg.targetChest = m.inputChest) ∧
        asg.amount = cfg.transferAmount := by
  intro machines
  induction machines with
  | nil => intro inv asg h; simp [StockBasedScheduler.scheduleGo] at h
  | cons machine rest ih =>
    intro inv asg h
    rcases StockBasedScheduler.scheduleGo_cons_s cfg machine rest inv with
      heq | ⟨recipes, asg2, inv2, _, htry, heq⟩
    · rw [heq] at h
      rcases ih inv asg h with ⟨⟨m, hm, hrest⟩, hamount⟩
      exact ⟨⟨m, List.mem_cons_of_mem _ hm, hrest⟩, hamount⟩
    · rw [heq] at h
      rcases List.mem_cons.1 h with hhead | htail
      · subst hhead
        rcases StockBasedScheduler.tryAssignRecipe_spec htry with ⟨h1, h2, h3, _⟩
        exact ⟨⟨machine, List.mem_cons_self _ _, h1, h2⟩, h3⟩
      · rcases ih inv2 asg htail with ⟨⟨m, hm, hrest⟩, hamount⟩
        exact ⟨⟨m, List.mem_cons_of_mem _ hm, hrest⟩, hamount⟩

theorem stock_scheduleGo_pairwise (cfg : StockBasedScheduler.Config) :
    ∀ (machines : List MachineState) (inv : Inv),
      (machines.map (·.id)).Nodup →
      (StockBasedScheduler.scheduleGo cfg machines inv).Pairwise
        (fun a b => a.machineId ≠ b.machineId) := by
  intro machines
  induction machines with
  | nil => intro inv _; simp [StockBasedScheduler.scheduleGo]
  | cons machine rest ih =>
    intro inv hnd
    rw [List.map_cons, List.nodup_cons] at hnd
    rcases StockBasedScheduler.scheduleGo_cons_s cfg machine rest inv with
      heq | ⟨recipes, asg2, inv2, _, htry, heq⟩
    · rw [heq]
      exact ih inv hnd.2
    · rw [heq]
      refine List.Pairwise.cons ?_ (ih inv2 hnd.2)
      intro b hb
      rcases (stock_scheduleGo_sound cfg rest inv2 b hb).1 with ⟨m, hm, hid, _⟩
      rcases StockBasedScheduler.tryAssignRecipe_spec htry with ⟨h1, _⟩
      rw [h1, hid]
      intro hc
      exact hnd.1 (hc ▸ List.mem_map_of_mem (·.id) hm)

/-- C10.  Implicit invariants of the scheduling output: for either policy,
every emitted assignment refers to an empty machine of the input list and
carries `amount = transferAmount`; and when the machine ids are distinct (as
the spec guarantees for a run), no machine id appears in more than one
assignment of the returned list. -/
theorem schedule_output_invariants :
    (∀ (cfg : WeightedScheduler.Config) (rand : Nat → ℚ)
       (machines : List MachineState) (inventory : Inv),
      ∀ asg ∈ WeightedScheduler.schedule cfg rand machines inventory,
        (∃ m ∈ machines, m.isEmpty = true ∧ asg.machineId = m.id) ∧
        asg.amount = cfg.transferAmount) ∧
    (∀ (cfg : WeightedScheduler.Config) (rand : Nat → ℚ)
       (machines : List MachineState) (inventory : Inv),
      (machines.map (·.id)).Nodup →
      (WeightedScheduler.schedule cfg rand machines inventory).Pairwise
        (fun a b => a.machineId ≠ b.machineId)) ∧
    (∀ (cfg : StockBasedScheduler.Config) (machines : List MachineState) (inventory : Inv),
      ∀ asg ∈ StockBasedScheduler.schedule cfg machines inventory,
        (∃ m ∈ machines, m.isEmpty = true ∧ asg.machineId = m.id) ∧
        asg.amount = cfg.transferAmount) ∧
    (∀ (cfg : StockBasedScheduler.Config) (machines : List MachineState) (inventory : Inv),
      (machines.map (·.id)).Nodup →
      (StockBasedScheduler.schedule cfg machines inventory).Pairwise
        (fun a b => a.machineId ≠ b.machineId)) := by
  refine ⟨?_, ?_, ?_, ?_⟩
  · intro cfg rand machines inventory asg h
    rcases weighted_scheduleGo_sound cfg rand machines 0 (deepCopyInv inventory) asg h with
      ⟨⟨m, hm, hempty, hid, _⟩, hamount⟩
    exact ⟨⟨m, hm, hempty, hid⟩, hamount⟩
  · intro cfg rand machines inventory hnd
    exact weighted_scheduleGo_pairwise cfg rand machines 0 (deepCopyInv inventory) hnd
  · intro cfg machines inventory asg h
    rcases stock_scheduleGo_sound cfg (machines.filter (·.isEmpty)) (deepCopyInv inventory)
        asg h with ⟨⟨m, hm, hid, _⟩, hamount⟩
    rw [List.mem_filter] at hm
    exact ⟨⟨m, hm.1, by simpa using hm.2, hid⟩, hamount⟩
  · intro cfg machines inventory hnd
    refine stock_scheduleGo_pairwise cfg (machines.filter (·.isEmpty)) (deepCopyInv inventory) ?_
    exact List.Nodup.sublist (List.Sublist.map (·.id) (List.filter_sublist machines)) hnd

/-- Witness for C10: a two-machine weighted run and a one-machine stock run;
the emitted assignments refer to empty machines, no machine id repeats, and
every amount equals the configured transfer amount. -/
theorem schedule_output_invariants_witness :
    ((∃ m ∈ [(⟨"m1", "hammer", "c1", true⟩ : MachineState), ⟨"m2", "hammer", "c2", false⟩],
        m.isEmpty = true ∧
        (⟨"m1", "c1", "minecraft:sand", 1, 64⟩ : Assignment).machineId = m.id) ∧
      (⟨"m1", "c1", "minecraft:sand", 1, 64⟩ : Assignment).amount = 64) ∧
    (WeightedScheduler.schedule
        { materials := [("sand", ⟨"sand", "minecraft:sand", 0, 1⟩)],
          machineTypes := [("hammer", ⟨["sand"]⟩)], transferAmount := 64 }
        (fun _ => 0)
        [⟨"m1", "hammer", "c1", true⟩, ⟨"m2", "hammer", "c2", false⟩]
        [("minecraft:sand", ⟨130, [⟨1, 130⟩]⟩)]).Pairwise
      (fun a b => a.machineId ≠ b.machineId) ∧
    ((∃ m ∈ [(⟨"p1", "press", "c1", true⟩ : MachineState)],
        m.isEmpty = true ∧
        (⟨"p1", "c1", "minecraft:cobblestone", 1, 64⟩ : Assignment).machineId = m.id) ∧
      (⟨"p1", "c1", "minecraft:cobblestone", 1, 64⟩ : Assignment).amount = 64) ∧
    (StockBasedScheduler.schedule
        { recipes := [("press", [⟨"minecraft:cobblestone", "minecraft:gravel"⟩])],
          stockTargets := [⟨"minecraft:gravel", 8192, 1, none⟩], transferAmount := 64 }
        [⟨"p1", "press", "c1", true⟩]
        [("minecraft:cobblestone", ⟨100, [⟨1, 100⟩]⟩)]).Pairwise
      (fun a b => a.machineId ≠ b.machineId) := by
  refine ⟨?_, ?_, ?_, ?_⟩
  · exact schedule_output_invariants.1
      { materials := [("sand", ⟨"sand", "minecraft:sand", 0, 1⟩)],
        machineTypes := [("hammer", ⟨["sand"]⟩)], transferAmount := 64 }
      (fun _ => 0) [⟨"m1", "hammer", "c1", true⟩, ⟨"m2", "hammer", "c2", false⟩]
      [("minecraft:sand", ⟨130, [⟨1, 130⟩]⟩)] ⟨"m1", "c1", "minecraft:sand", 1, 64⟩ (by decide)
  · exact schedule_output_invariants.2.1
      { materials := [("sand", ⟨"sand", "minecraft:sand", 0, 1⟩)],
        machineTypes := [("hammer", ⟨["sand"]⟩)], transferAmount := 64 }
      (fun _ => 0) [⟨"m1", "hammer", "c1", true⟩, ⟨"m2", "hammer", "c2", false⟩]
      [("minecraft:sand", ⟨130, [⟨1, 130⟩]⟩)] (by decide)
  · refine schedule_output_invariants.2.2.1
      { recipes := [("press", [⟨"minecraft:cobblestone", "minecraft:gravel"⟩])],
        stockTargets := [⟨"minecraft:gravel", 8192, 1, none⟩], transferAmount := 64 }
      [⟨"p1", "press", "c1", true⟩]
      [("minecraft:cobblestone", ⟨100, [⟨1, 100⟩]⟩)]
      ⟨"p1", "c1", "minecraft:cobblestone", 1, 64⟩ ?_
    simp [StockBasedScheduler.schedule, StockBasedScheduler.scheduleGo,
      StockBasedScheduler.scoreRecipes, StockBasedScheduler.tryAssignRecipe,
      StockBasedScheduler.reserveFor, commitAssignment, applyTransferToItem,
      chooseSlotIdx, lookupA, lookupTotal, deepCopyInv, setA, eraseA]
    norm_num
  · exact schedule_output_invariants.2.2.2
      { recipes := [("press", [⟨"minecraft:cobblestone", "minecraft:gravel"⟩])],
        stockTargets := [⟨"minecraft:gravel", 8192, 1, none⟩], transferAmount := 64 }
      [⟨"p1", "press", "c1", true⟩]
      [("minecraft:cobblestone", ⟨100, [⟨1, 100⟩]⟩)] (by decide)

/-! ## Claim C7: chain break semantics -/

/-- C7.  Chain break semantics: (1) the moment a link's space check reports
the shared processing chest full, the whole remaining walk stops — nothing
further is attempted and no further results can appear, whatever the later
links' oracles would have allowed; (2) a link whose transfer attempt fails
only skips that link: the walk continues with the next link on the unchanged
running inventory (the failed link is recorded as an attempt but contributes
no result). -/
theorem chain_break_semantics :
    (∀ (config : ProcessingEngine.PhaseConfig) (env : ProcessingEngine.EngineEnv)
       (chestItems : List String) (lnk : String × String) (rest : List (String × String))
       (i : Nat) (inv : ProcessingEngine.InvE),
      ProcessingEngine.hasAvailableSpace (env.chest i) = .ok false →
      ProcessingEngine.processGo config env chestItems (lnk :: rest) i inv =
        { results := [], attempts := [], finalInventory := inv }) ∧
    (∀ (config : ProcessingEngine.PhaseConfig) (env : ProcessingEngine.EngineEnv)
       (chestItems : List String) (inputItemId outputItemId : String)
       (rest : List (String × String)) (i : Nat) (inv : ProcessingEngine.InvE)
       (s : Int) (e : ProcessingEngine.EngineErr),
      ProcessingEngine.hasAvailableSpace (env.chest i) = .ok true →
      chestItems.contains inputItemId = false →
      ProcessingEngine.shouldProcess config inv inputItemId outputItemId = .ok s →
      (ProcessingEngine.transferToProcessing inputItemId outputItemId s
          (env.transfer i)).1 = .error e →
      ProcessingEngine.processGo config env chestItems
          ((inputItemId, outputItemId) :: rest) i inv =
        { results := (ProcessingEngine.processGo config env chestItems rest (i + 1) inv).results,
          attempts :=
            i :: (ProcessingEngine.processGo config env chestItems rest (i + 1) inv).attempts,
          finalInventory :=
            (ProcessingEngine.processGo config env chestItems rest (i + 1) inv).finalInventory }) := by
  constructor
  · intro config env chestItems lnk rest i inv hfull
    cases lnk
    simp [ProcessingEngine.processGo, hfull]
  · intro config env chestItems inputItemId outputItemId rest i inv s e hspace hchest hshould htr
    rcases htrp : ProcessingEngine.transferToProcessing inputItemId outputItemId s
        (env.transfer i) with ⟨res, pushed⟩
    rw [htrp] at htr
    simp only at htr
    subst htr
    have hnotin : inputItemId ∉ chestItems := by simpa using hchest
    simp [ProcessingEngine.processGo, hspace, hnotin, hshould, htrp]

/-- Witness for C7: a chest with its single slot occupied stops a two-link
chain at link 0 even though link 1 would have qualified; and a failed link-0
transfer lets link 1 proceed on the unchanged inventory. -/
theorem chain_break_semantics_witness :
    ProcessingEngine.processGo
        { minInputReserve := 0, maxOutputStock := 256, chain := [] }
        { chest := fun _ => some ⟨1, [64]⟩, transfer := fun _ => ⟨true, some "a", 64⟩ }
        [] [("a", "b"), ("b", "c")] 0 [("a", ⟨128, [1]⟩), ("b", ⟨128, [2]⟩)] =
      { results := [], attempts := [],
        finalInventory := [("a", ⟨128, [1]⟩), ("b", ⟨128, [2]⟩)] } ∧
    ProcessingEngine.processGo
        { minInputReserve := 0, maxOutputStock := 256, chain := [] }
        { chest := fun _ => some ⟨27, []⟩, transfer := fun _ => ⟨true, some "other", 64⟩ }
        [] [("a", "b"), ("b", "c")] 0 [("a", ⟨128, [1]⟩), ("b", ⟨128, [2]⟩)] =
      { results :=
          (ProcessingEngine.processGo
            { minInputReserve := 0, maxOutputStock := 256, chain := [] }
            { chest := fun _ => some ⟨27, []⟩, transfer := fun _ => ⟨true, some "other", 64⟩ }
            [] [("b", "c")] 1 [("a", ⟨128, [1]⟩), ("b", ⟨128, [2]⟩)]).results,
        attempts :=
          0 :: (ProcessingEngine.processGo
            { minInputReserve := 0, maxOutputStock := 256, chain := [] }
            { chest := fun _ => some ⟨27, []⟩, transfer := fun _ => ⟨true, some "other", 64⟩ }
            [] [("b", "c")] 1 [("a", ⟨128, [1]⟩), ("b", ⟨128, [2]⟩)]).attempts,
        finalInventory :=
          (ProcessingEngine.processGo
            { minInputReserve := 0, maxOutputStock := 256, chain := [] }
            { chest := fun _ => some ⟨27, []⟩, transfer := fun _ => ⟨true, some "other", 64⟩ }
            [] [("b", "c")] 1 [("a", ⟨128, [1]⟩), ("b", ⟨128, [2]⟩)]).finalInventory } :=
  ⟨chain_break_semantics.1 _ _ _ _ _ _ _ rfl,
   chain_break_semantics.2 _ _ _ _ _ _ _ _ 1 (.slotChanged 1 "a" "other") rfl rfl rfl rfl⟩

/-! ## Claim C8: chain local-inventory bookkeeping -/

/-- C8 counterexample.  The claim says the engine's per-link bookkeeping is
the scheduler's step 7 (decrement the chosen slot's count, drop the slot
entry at 0).  Concretely: 128 items of `"in"` spread over slots 1 and 2
(64 each); a successful 64-item transfer from slot 1 should then leave
`totalCount = 64` with slot list `[2]`.  The engine instead leaves the slot
list untouched at `[1, 2]` — its engine-era inventory type has no per-slot
counts at all — so the claim as stated is false at this input. -/
theorem chain_bookkeeping_counterexample :
    (ProcessingEngine.processAllMaterials
        { minInputReserve := 0, maxOutputStock := 256, chain := [("in", "out")] }
        { chest := fun _ => some ⟨27, []⟩, transfer := fun _ => ⟨true, some "in", 64⟩ }
        (some [("in", ⟨128, [1, 2]⟩)]) (some [])).finalInventory =
      [("in", ⟨64, [1, 2]⟩)] ∧
    [("in", (⟨64, [1, 2]⟩ : ProcessingEngine.ItemInfo))] ≠
      [("in", (⟨64, [2]⟩ : ProcessingEngine.ItemInfo))] := by
  constructor
  · rfl
  · decide

/-- C8 amended.  After every successful transfer of a chain link, the engine
updates its local running inventory by decrementing the item's `totalCount`
by the transferred amount and dropping the item entry entirely when
`totalCount` reaches 0 or below, so later links in the same walk see the
remaining total stock; the slot list (bare slot numbers, with no per-slot
counts in the engine-era inventory type) is left unchanged — there is no
per-slot decrement and no slot-entry drop. -/
theorem chain_bookkeeping_amended :
    (∀ (config : ProcessingEngine.PhaseConfig) (env : ProcessingEngine.EngineEnv)
       (chestItems : List String) (inputItemId outputItemId : String)
       (rest : List (String × String)) (i : Nat) (inv : ProcessingEngine.InvE)
       (s : Int) (pr : ProcessingEngine.ProcessingResult),
      ProcessingEngine.hasAvailableSpace (env.chest i) = .ok true →
      chestItems.contains inputItemId = false →
      ProcessingEngine.shouldProcess config inv inputItemId outputItemId = .ok s →
      (ProcessingEngine.transferToProcessing inputItemId outputItemId s
          (env.transfer i)).1 = .ok pr →
      ProcessingEngine.processGo config env chestItems
          ((inputItemId, outputItemId) :: rest) i inv =
        { results := pr :: (ProcessingEngine.processGo config env chestItems rest (i + 1)
            (ProcessingEngine.updateLocalInventory inv inputItemId pr.itemsTransferred)).results,
          attempts := i :: (ProcessingEngine.processGo config env chestItems rest (i + 1)
            (ProcessingEngine.updateLocalInventory inv inputItemId pr.itemsTransferred)).attempts,
          finalInventory := (ProcessingEngine.processGo config env chestItems rest (i + 1)
            (ProcessingEngine.updateLocalInventory inv inputItemId
              pr.itemsTransferred)).finalInventory }) ∧
    (∀ (inv : ProcessingEngine.InvE) (inputItemId : String) (n : Int)
       (info : ProcessingEngine.ItemInfo),
      lookupA inv inputItemId = some info →
      ProcessingEngine.updateLocalInventory inv inputItemId n =
        if info.totalCount - n ≤ 0 then eraseA inv inputItemId
        else setA inv inputItemId { totalCount := info.totalCount - n, slots := info.slots }) := by
  constructor
  · intro config env chestItems inputItemId outputItemId rest i inv s pr
      hspace hchest hshould htr
    rcases htrp : ProcessingEngine.transferToProcessing inputItemId outputItemId s
        (env.transfer i) with ⟨res, pushed⟩
    rw [htrp] at htr
    simp only at htr
    subst htr
    have hnotin : inputItemId ∉ chestItems := by simpa using hchest
    simp [ProcessingEngine.processGo, hspace, hnotin, hshould, htrp]
  · intro inv inputItemId n info hlook
    unfold ProcessingEngine.updateLocalInventory
    rw [hlook]

/-- Witness for C8's amended theorem: the concrete successful run of the
counterexample, and the update rule at its inventory. -/
theorem chain_bookkeeping_amended_witness :
    ProcessingEngine.processGo
        { minInputReserve := 0, maxOutputStock := 256, chain := [("in", "out")] }
        { chest := fun _ => some ⟨27, []⟩, transfer := fun _ => ⟨true, some "in", 64⟩ }
        [] [("in", "out")] 0 [("in", ⟨128, [1, 2]⟩)] =
      { results := [⟨"in", "out", 64, 1⟩],
        attempts := [0],
        finalInventory := [("in", ⟨64, [1, 2]⟩)] } ∧
    ProcessingEngine.updateLocalInventory [("in", ⟨128, [1, 2]⟩)] "in" 64 =
      setA [("in", ⟨128, [1, 2]⟩)] "in" ⟨64, [1, 2]⟩ := by
  constructor
  · have h := chain_bookkeeping_amended.1
      { minInputReserve := 0, maxOutputStock := 256, chain := [("in", "out")] }
      { chest := fun _ => some ⟨27, []⟩, transfer := fun _ => ⟨true, some "in", 64⟩ }
      [] "in" "out" [] 0 [("in", ⟨128, [1, 2]⟩)] 1 ⟨"in", "out", 64, 1⟩ rfl rfl rfl rfl
    rw [h]
    rfl
  · have h := chain_bookkeeping_amended.2 [("in", ⟨128, [1, 2]⟩)] "in" 64 ⟨128, [1, 2]⟩ rfl
    rw [h]
    rfl

/-! ## Claim C6: urgency-proportional selection -/

namespace StockBasedScheduler

theorem scoredLE_iff (a b : ScoredRecipe) :
    scoredLE a b = true ↔
      (a.urgency = b.urgency ∧ ¬ b.recipe.output < a.recipe.output) ∨
      b.urgency < a.urgency := by
  unfold scoredLE
  by_cases h : a.urgency = b.urgency
  · simp [h]
  · simp [h]

theorem scoredLE_trans (a b c : ScoredRecipe) (h1 : scoredLE a b = true)
    (h2 : scoredLE b c = true) : scoredLE a c = true := by
  rw [scoredLE_iff] at h1 h2 ⊢
  rcases h1 with ⟨he1, ho1⟩ | hl1 <;> rcases h2 with ⟨he2, ho2⟩ | hl2
  · left
    refine ⟨he1.trans he2, fun hca => ?_⟩
    rcases lt_trichotomy a.recipe.output b.recipe.output with hab | hab | hab
    · exact ho2 (lt_trans hca hab)
    · exact ho2 (hab ▸ hca)
    · exact ho1 hab
  · right; rw [he1]; exact hl2
  · right; rw [← he2]; exact hl1
  · right; exact lt_trans hl2 hl1

theorem scoredLE_total (a b : ScoredRecipe) :
    (scoredLE a b || scoredLE b a) = true := by
  by_cases hab : scoredLE a b = true
  · simp [hab]
  · have hf : ¬ ((a.urgency = b.urgency ∧ ¬ b.recipe.output < a.recipe.output) ∨
        b.urgency < a.urgency) := fun hc => hab ((scoredLE_iff a b).2 hc)
    push_neg at hf
    have hba : scoredLE b a = true := by
      rw [scoredLE_iff]
      by_cases he : a.urgency = b.urgency
      · exact Or.inl ⟨he.symm, lt_asymm (hf.1 he)⟩
      · right
        rcases lt_trichotomy a.urgency b.urgency with h | h | h
        · exact h
        · exact absurd h he
        · exact absurd h (not_lt.2 hf.2)
    simp [hba]

theorem tryAssignRecipe_first_viable (cfg : Config) (machine : MachineState)
    (hTA : 0 < cfg.transferAmount)
    (hRes : ∀ t ∈ cfg.stockTargets, 0 ≤ t.minReserve.getD 0) :
    ∀ (scored : List ScoredRecipe) (inv : Inv),
      (∀ p ∈ inv, 0 < p.2.totalCount → p.2.slots ≠ []) →
      Option.map (fun pr => pr.1.itemId) (tryAssignRecipe cfg machine scored inv) =
        Option.map (fun sr => sr.recipe.input)
          (scored.find? (fun sr => decide (0 < sr.urgency) &&
            decide (reserveFor cfg sr.recipe.input + cfg.transferAmount ≤
              lookupTotal inv sr.recipe.input))) := by
  intro scored
  induction scored with
  | nil => intro inv _; rfl
  | cons sr rest ih =>
    intro inv hwf
    unfold tryAssignRecipe
    rw [List.find?_cons]
    by_cases hu : sr.urgency ≤ 0
    · have hp : (decide (0 < sr.urgency) &&
          decide (reserveFor cfg sr.recipe.input + cfg.transferAmount ≤
            lookupTotal inv sr.recipe.input)) = false := by
        simp [not_lt.2 hu]
      rw [if_pos hu, hp]
      exact ih inv hwf
    · rw [if_neg hu]
      have hres := reserveFor_nonneg hRes sr.recipe.input
      cases hlk : lookupA inv sr.recipe.input with
      | none =>
        have htot : lookupTotal inv sr.recipe.input = 0 := by
          simp [lookupTotal, hlk]
        have hp : (decide (0 < sr.urgency) &&
            decide (reserveFor cfg sr.recipe.input + cfg.transferAmount ≤
              lookupTotal inv sr.recipe.input)) = false := by
          simp [htot]
          intro _
          omega
        rw [hp]
        exact ih inv hwf
      | some info =>
        have htot : lookupTotal inv sr.recipe.input = info.totalCount := by
          simp [lookupTotal, hlk]
        simp only
        by_cases hreq : info.totalCount < reserveFor cfg sr.recipe.input + cfg.transferAmount
        · have hp : (decide (0 < sr.urgency) &&
              decide (reserveFor cfg sr.recipe.input + cfg.transferAmount ≤
                lookupTotal inv sr.recipe.input)) = false := by
            simp [htot]
            intro _
            omega
          rw [if_pos hreq, hp]
          exact ih inv hwf
        · have hp : (decide (0 < sr.urgency) &&
              decide (reserveFor cfg sr.recipe.input + cfg.transferAmount ≤
                lookupTotal inv sr.recipe.input)) = true := by
            simp [htot, not_le.1 hu]
            omega
          rw [if_neg hreq, hp]
          have hslots : info.slots ≠ [] := by
            refine hwf (sr.recipe.input, info) (lookupA_mem hlk) ?_
            dsimp only
            omega
          cases hfs : info.slots.find? (fun s => decide (cfg.transferAmount ≤ s.count)) with
          | some slotInfo => rfl
          | none =>
            cases hhd : info.slots.head? with
            | none => exact absurd (List.head?_eq_none_iff.1 hhd) hslots
            | some s0 => rfl

end StockBasedScheduler

/-- C6.  Urgency-proportional selection, in three parts: (1) every scored
recipe carries `urgency = max(0, (targetCount − currentOutputCount) / targetCount)
* weight` for the stock target matching its output, and `urgency = 0` when no
target matches; (2) the sort used by the scheduler orders the scored recipes
by urgency descending with ascending output-identity tie-break, and is a
permutation of the scored list; (3) the per-machine walk emits the assignment
of exactly the first candidate in that order with positive urgency whose
input's running total covers `minReserve + transferAmount` (under the
documented invariants: positive transfer amount, non-negative reserves, and a
snapshot whose non-empty items have slot entries). -/
theorem urgency_selection :
    (∀ (cfg : StockBasedScheduler.Config) (recipes : List StockBasedScheduler.RecipeDefinition)
       (inv : Inv), ∀ sr ∈ StockBasedScheduler.scoreRecipes cfg recipes inv,
      (cfg.stockTargets.find? (fun t => t.itemId == sr.recipe.output) = none →
        sr.urgency = 0) ∧
      (∀ t, cfg.stockTargets.find? (fun t2 => t2.itemId == sr.recipe.output) = some t →
        sr.urgency = max 0 (((t.targetCount : ℚ) - (lookupTotal inv sr.recipe.output : ℚ)) /
          (t.targetCount : ℚ)) * t.weight)) ∧
    (∀ scored : List StockBasedScheduler.ScoredRecipe,
      (scored.mergeSort StockBasedScheduler.scoredLE).Pairwise (fun a b =>
        b.urgency < a.urgency ∨
        (a.urgency = b.urgency ∧ ¬ b.recipe.output < a.recipe.output)) ∧
      (scored.mergeSort StockBasedScheduler.scoredLE).Perm scored) ∧
    (∀ (cfg : StockBasedScheduler.Config) (machine : MachineState)
       (scored : List StockBasedScheduler.ScoredRecipe) (inv : Inv),
      0 < cfg.transferAmount →
      (∀ t ∈ cfg.stockTargets, 0 ≤ t.minReserve.getD 0) →
      (∀ p ∈ inv, 0 < p.2.totalCount → p.2.slots ≠ []) →
      Option.map (fun pr => pr.1.itemId)
          (StockBasedScheduler.tryAssignRecipe cfg machine scored inv) =
        Option.map (fun sr => sr.recipe.input)
          (scored.find? (fun sr => decide (0 < sr.urgency) &&
            decide (StockBasedScheduler.reserveFor cfg sr.recipe.input + cfg.transferAmount ≤
              lookupTotal inv sr.recipe.input)))) := by
  refine ⟨?_, ?_, ?_⟩
  · intro cfg recipes inv sr hmem
    unfold StockBasedScheduler.scoreRecipes at hmem
    rcases List.mem_map.1 hmem with ⟨r, _, heq⟩
    constructor
    · intro hnone
      cases hf : cfg.stockTargets.find? (fun t => t.itemId == r.output) with
      | none =>
        rw [hf] at heq
        cases heq
        rfl
      | some t =>
        rw [hf] at heq
        simp only at heq
        cases heq
        dsimp only at hnone
        rw [hf] at hnone
        simp at hnone
    · intro t ht
      cases hf : cfg.stockTargets.find? (fun t2 => t2.itemId == r.output) with
      | none =>
        rw [hf] at heq
        cases heq
        dsimp only at ht
        rw [hf] at ht
        simp at ht
      | some t2 =>
        rw [hf] at heq
        simp only at heq
        cases heq
        dsimp only at ht ⊢
        rw [hf] at ht
        cases ht
        rfl
  · intro scored
    constructor
    · refine List.Pairwise.imp ?_
        (List.sorted_mergeSort
          StockBasedScheduler.scoredLE_trans StockBasedScheduler.scoredLE_total scored)
      intro a b hab
      rcases (StockBasedScheduler.scoredLE_iff a b).1 hab with ⟨he, ho⟩ | hl
      · exact Or.inr ⟨he, ho⟩
      · exact Or.inl hl
    · exact List.mergeSort_perm scored StockBasedScheduler.scoredLE
  · intro cfg machine scored inv hTA hRes hwf
    exact StockBasedScheduler.tryAssignRecipe_first_viable cfg machine hTA hRes scored inv hwf

/-- Witness for C6: a recipe without a stock target scores urgency 0; the
sort of a concrete scored list is ordered and a permutation; and a concrete
machine walk picks exactly the first viable candidate of the sorted list. -/
theorem urgency_selection_witness :
    (⟨⟨"a", "b"⟩, 0⟩ : StockBasedScheduler.ScoredRecipe).urgency = 0 ∧
    (([⟨⟨"cob", "grav"⟩, 1⟩, ⟨⟨"x", "y"⟩, 0⟩] :
        List StockBasedScheduler.ScoredRecipe).mergeSort
          StockBasedScheduler.scoredLE).Pairwise (fun a b =>
      b.urgency < a.urgency ∨
      (a.urgency = b.urgency ∧ ¬ b.recipe.output < a.recipe.output)) ∧
    Option.map (fun pr => pr.1.itemId)
        (StockBasedScheduler.tryAssignRecipe
          { recipes := [], stockTargets := [⟨"grav", 8192, 1, none⟩], transferAmount := 64 }
          ⟨"p1", "press", "c1", true⟩
          [⟨⟨"cob", "grav"⟩, 1⟩, ⟨⟨"x", "y"⟩, 0⟩]
          [("cob", ⟨100, [⟨1, 100⟩]⟩)]) =
      Option.map (fun sr => sr.recipe.input)
        (([⟨⟨"cob", "grav"⟩, 1⟩, ⟨⟨"x", "y"⟩, 0⟩] :
            List StockBasedScheduler.ScoredRecipe).find? (fun sr =>
          decide (0 < sr.urgency) &&
          decide (StockBasedScheduler.reserveFor
              { recipes := [], stockTargets := [⟨"grav", 8192, 1, none⟩], transferAmount := 64 }
              sr.recipe.input + 64 ≤
            lookupTotal [("cob", ⟨100, [⟨1, 100⟩]⟩)] sr.recipe.input))) := by
  refine ⟨?_, ?_, ?_⟩
  · exact (urgency_selection.1 { recipes := [], stockTargets := [], transferAmount := 64 }
      [⟨"a", "b"⟩] [] ⟨⟨"a", "b"⟩, 0⟩ (by decide)).1 rfl
  · exact (urgency_selection.2.1 [⟨⟨"cob", "grav"⟩, 1⟩, ⟨⟨"x", "y"⟩, 0⟩]).1
  · exact urgency_selection.2.2
      { recipes := [], stockTargets := [⟨"grav", 8192, 1, none⟩], transferAmount := 64 }
      ⟨"p1", "press", "c1", true⟩ [⟨⟨"cob", "grav"⟩, 1⟩, ⟨⟨"x", "y"⟩, 0⟩]
      [("cob", ⟨100, [⟨1, 100⟩]⟩)] (by decide) (by decide) (by decide)

/-! ## Claim C2: the race guard of the transfer executor -/

/-- C2.  Race guard: whenever the direct read of the source slot during the
batched call shows the slot empty or holding an identity different from the
expected one, `executeTransfer` returns the `SlotChanged` failure carrying
the slot, the expected and the actual identity, and the move primitive is
never invoked (the instrumentation bit is `false`, so zero items are moved).
The embedding is a total function, so no exception escapes to the caller. -/
theorem transfer_race_guard (req : TransferRequest) (env : TransferEnv)
    (hok : env.callOk = true)
    (hmis : env.slotItem = none ∨ ∃ a, env.slotItem = some a ∧ a ≠ req.expectedItemId) :
    executeTransfer req env =
      (.error (.slotChanged req.sourceSlot req.expectedItemId (env.slotItem.getD "empty")),
        false) := by
  rcases hmis with hnone | ⟨a, ha, hne⟩
  · simp [executeTransfer, hok, hnone]
  · simp [executeTransfer, hok, ha, hne]

/-- Witness for C2 at a concrete input: slot 3 was scheduled to hold sand but
now holds dirt; the call fails with `SlotChanged` and no push happens. -/
theorem transfer_race_guard_witness :
    executeTransfer ⟨"chest_2", 3, "minecraft:sand", 64⟩ ⟨true, some "minecraft:dirt", 64⟩ =
      (.error (.slotChanged 3 "minecraft:sand" "minecraft:dirt"), false) :=
  transfer_race_guard _ _ rfl (Or.inr ⟨"minecraft:dirt", rfl, by decide⟩)

/-! ## Claim C3: zero-transferred no-op -/

/-- C3.  Zero-transferred no-op: (1) when the slot-identity pre-check passes
but the move primitive reports `0` units moved, `executeTransfer` returns the
`TransferFailed` result with reason `"no_items_transferred"` (a value, not an
exception); (2) in the chain processing engine, a link whose transfer attempt
fails leaves the local running inventory passed to the remaining links
unchanged — it is only decremented on a successful transfer. -/
theorem transfer_zero_noop :
    (∀ (req : TransferRequest) (env : TransferEnv), env.callOk = true →
      env.slotItem = some req.expectedItemId → env.pushResult = 0 →
      executeTransfer req env =
        (.error (.transferFailed req.sourceSlot "no_items_transferred"), true)) ∧
    (∀ (config : ProcessingEngine.PhaseConfig) (env : ProcessingEngine.EngineEnv)
       (chestItems : List String) (inputItemId outputItemId : String)
       (rest : List (String × String)) (i : Nat) (inv : ProcessingEngine.InvE)
       (s : Int) (e : ProcessingEngine.EngineErr),
      ProcessingEngine.hasAvailableSpace (env.chest i) = .ok true →
      chestItems.contains inputItemId = false →
      ProcessingEngine.shouldProcess config inv inputItemId outputItemId = .ok s →
      (ProcessingEngine.transferToProcessing inputItemId outputItemId s
          (env.transfer i)).1 = .error e →
      (ProcessingEngine.processGo config env chestItems
          ((inputItemId, outputItemId) :: rest) i inv).finalInventory =
        (ProcessingEngine.processGo config env chestItems rest (i + 1) inv).finalInventory) := by
  constructor
  · intro req env hok hmatch hzero
    simp [executeTransfer, hok, hmatch, hzero]
  · intro config env chestItems inputItemId outputItemId rest i inv s e hspace hchest hshould htr
    rcases htrp : ProcessingEngine.transferToProcessing inputItemId outputItemId s
        (env.transfer i) with ⟨res, pushed⟩
    rw [htrp] at htr
    simp only at htr
    subst htr
    have hnotin : inputItemId ∉ chestItems := by simpa using hchest
    simp [ProcessingEngine.processGo, hspace, hnotin, hshould, htrp]

/-- Witness for C3: a pre-check-passing transfer whose push moves nothing,
and a one-link chain whose failed transfer leaves the running inventory for
the rest of the walk untouched. -/
theorem transfer_zero_noop_witness :
    executeTransfer ⟨"proc", 1, "minecraft:cobblestone", 64⟩
        ⟨true, some "minecraft:cobblestone", 0⟩ =
      (.error (.transferFailed 1 "no_items_transferred"), true) ∧
    (ProcessingEngine.processGo
        { minInputReserve := 0, maxOutputStock := 256, chain := [("in", "out")] }
        { chest := fun _ => some ⟨27, []⟩, transfer := fun _ => ⟨true, some "in", 0⟩ }
        [] [("in", "out")] 0 [("in", ⟨128, [1, 2]⟩)]).finalInventory =
      (ProcessingEngine.processGo
        { minInputReserve := 0, maxOutputStock := 256, chain := [("in", "out")] }
        { chest := fun _ => some ⟨27, []⟩, transfer := fun _ => ⟨true, some "in", 0⟩ }
        [] [] 1 [("in", ⟨128, [1, 2]⟩)]).finalInventory :=
  ⟨transfer_zero_noop.1 _ _ rfl rfl rfl,
   transfer_zero_noop.2 _ _ _ _ _ _ _ _ 1 (.transferFailed "in" "no_items_transferred")
     rfl rfl rfl rfl⟩

/-! ## Claim C4: minimum-stock exclusion -/

/-- C4.  Minimum-stock exclusion: every candidate produced by
`getAvailableMaterials` has a running-inventory total of at least
`minStock + transferAmount` (so a material below that threshold is never in
the candidate set); `weightedSelect` only ever returns a member of its
candidate list; and in the engine-era variant every successful
`selectMaterial` result satisfies the same stock bound — hence a material
whose current total is below `minStock + transferAmount` is never selected,
regardless of its weight. -/
theorem min_stock_exclusion :
    (∀ (cfg : WeightedScheduler.Config) (mt : WeightedScheduler.MachineTypeDefinition)
       (inv : Inv) (am : WeightedScheduler.AvailableMaterial),
      am ∈ WeightedScheduler.getAvailableMaterials cfg mt inv →
      am.definition.minStock + cfg.transferAmount ≤ lookupTotal inv am.definition.itemId) ∧
    (∀ (mats : List WeightedScheduler.AvailableMaterial) (u : ℚ)
       (m : WeightedScheduler.AvailableMaterial),
      WeightedScheduler.weightedSelect mats u = some m → m ∈ mats) ∧
    (∀ (cfg : EngineScheduler.Config) (un : EngineScheduler.UneartherInstance)
       (invC : List (String × ProcessingEngine.ItemInfo)) (stackSize : Int) (u : ℚ)
       (sel : EngineScheduler.MaterialSelection),
      EngineScheduler.selectMaterial cfg un invC stackSize u = .ok sel →
      sel.material.minStock + stackSize ≤
        ProcessingEngine.lookupTotalE invC sel.material.itemId) := by
  refine ⟨?_, ?_, ?_⟩
  · intro cfg mt inv am ham
    rcases (WeightedScheduler.mem_getAvailableMaterials ham).2 with ⟨e, he, hbound, _⟩
    simpa [lookupTotal, he] using hbound
  · intro mats u m h
    exact WeightedScheduler.weightedSelect_mem h
  · intro cfg un invC stackSize u sel hsel
    unfold EngineScheduler.selectMaterial at hsel
    cases ht : lookupA cfg.uneartherTypes un.type with
    | none => rw [ht] at hsel; simp at hsel
    | some uType =>
      rw [ht] at hsel
      simp only at hsel
      cases hw : EngineScheduler.weightedSelect
          (EngineScheduler.availableMaterials cfg uType invC stackSize) u with
      | none => rw [hw] at hsel; simp at hsel
      | some selected =>
        rw [hw] at hsel
        simp only at hsel
        injection hsel with hsel2
        subst hsel2
        have hmem := EngineScheduler.weightedSelect_mem_e hw
        rcases (EngineScheduler.mem_availableMaterials hmem).2 with ⟨e, he, hbound⟩
        simpa [ProcessingEngine.lookupTotalE, he] using hbound

/-- Witness for C4: a two-material machine type in which only sand clears
`minStock + transferAmount`; the candidate-set bound, the membership of the
selected candidate, and the engine-era bound, each at concrete inputs. -/
theorem min_stock_exclusion_witness :
    ((6 : Int) + 2 ≤ lookupTotal [("sand", ⟨10, [⟨1, 10⟩]⟩)] "sand") ∧
    ((⟨⟨"s", "sand", 6, 1⟩, [⟨1, 10⟩]⟩ : WeightedScheduler.AvailableMaterial) ∈
      [(⟨⟨"s", "sand", 6, 1⟩, [⟨1, 10⟩]⟩ : WeightedScheduler.AvailableMaterial)]) ∧
    ((0 : Int) + 64 ≤ ProcessingEngine.lookupTotalE [("sand", ⟨100, [1]⟩)] "sand") := by
  refine ⟨?_, ?_, ?_⟩
  · exact min_stock_exclusion.1
      { materials := [("s", ⟨"s", "sand", 6, 1⟩)],
        machineTypes := [("t", ⟨["s"]⟩)], transferAmount := 2 }
      ⟨["s"]⟩ [("sand", ⟨10, [⟨1, 10⟩]⟩)] ⟨⟨"s", "sand", 6, 1⟩, [⟨1, 10⟩]⟩ (by decide)
  · exact min_stock_exclusion.2.1 [⟨⟨"s", "sand", 6, 1⟩, [⟨1, 10⟩]⟩] 0 _ (by decide)
  · exact min_stock_exclusion.2.2
      { materials := [("s", ⟨"sand", 0, 1⟩)], uneartherTypes := [("t", ⟨["s"]⟩)] }
      ⟨"u1", "t"⟩ [("sand", ⟨100, [1]⟩)] 64 0 ⟨"s", ⟨"sand", 0, 1⟩, some 1⟩ rfl

/-! ## Claim C5: weight-zero exclusion -/

/-- C5.  Weight-zero exclusion: in both copies of the weighted-random
selection, over a candidate set with two or more members and for every value
of the random draw lying in `[0, totalWeight)`, the returned candidate has
strictly positive weight — a weight-0 candidate adds nothing to the
cumulative sum, so it can never satisfy the `random < cumulative` test. -/
theorem weight_zero_exclusion :
    (∀ (mats : List WeightedScheduler.AvailableMaterial) (u : ℚ)
       (m : WeightedScheduler.AvailableMaterial),
      2 ≤ mats.length →
      0 ≤ u * WeightedScheduler.totalWeightOf mats →
      u * WeightedScheduler.totalWeightOf mats < WeightedScheduler.totalWeightOf mats →
      WeightedScheduler.weightedSelect mats u = some m →
      0 < m.definition.weight) ∧
    (∀ (mats : List EngineScheduler.AvailableMaterial) (u : ℚ)
       (m : EngineScheduler.AvailableMaterial),
      2 ≤ mats.length →
      0 ≤ u * EngineScheduler.totalWeightOf mats →
      u * EngineScheduler.totalWeightOf mats < EngineScheduler.totalWeightOf mats →
      EngineScheduler.weightedSelect mats u = some m →
      0 < m.config.weight) := by
  constructor
  · intro mats u m hlen h0 h1 hsel
    match mats, hlen with
    | a :: b :: t, _ =>
      unfold WeightedScheduler.weightedSelect at hsel
      simp only at hsel
      cases hloop : WeightedScheduler.selectLoop
          (u * WeightedScheduler.totalWeightOf (a :: b :: t)) (a :: b :: t) 0 with
      | some m2 =>
        rw [hloop] at hsel
        cases hsel
        exact WeightedScheduler.selectLoop_pos h0 hloop
      | none =>
        have := WeightedScheduler.selectLoop_none hloop (by simp)
        simp only [zero_add] at this
        linarith
  · intro mats u m hlen h0 h1 hsel
    match mats, hlen with
    | a :: b :: t, _ =>
      unfold EngineScheduler.weightedSelect at hsel
      simp only at hsel
      cases hloop : EngineScheduler.selectLoop
          (u * EngineScheduler.totalWeightOf (a :: b :: t)) (a :: b :: t) 0 with
      | some m2 =>
        rw [hloop] at hsel
        cases hsel
        exact EngineScheduler.selectLoop_pos_e h0 hloop
      | none =>
        have := EngineScheduler.selectLoop_none_e hloop (by simp)
        simp only [zero_add] at this
        linarith

/-- Witness for C5: a weight-0 candidate listed first and a weight-3
candidate second, with draw 0; the weight-0 candidate is skipped and the
returned candidate's weight is positive, in both scheduler variants. -/
theorem weight_zero_exclusion_witness :
    (0 : ℚ) <
      (⟨⟨"s", "sand", 0, 3⟩, [⟨1, 10⟩]⟩ : WeightedScheduler.AvailableMaterial).definition.weight ∧
    (0 : ℚ) < (⟨"s", ⟨"sand", 0, 3⟩, 10, [1]⟩ : EngineScheduler.AvailableMaterial).config.weight := by
  constructor
  · exact weight_zero_exclusion.1
      [⟨⟨"g", "gravel", 0, 0⟩, [⟨2, 10⟩]⟩, ⟨⟨"s", "sand", 0, 3⟩, [⟨1, 10⟩]⟩] 0
      ⟨⟨"s", "sand", 0, 3⟩, [⟨1, 10⟩]⟩ (by decide)
      (by norm_num [WeightedScheduler.totalWeightOf])
      (by norm_num [WeightedScheduler.totalWeightOf])
      (by norm_num [WeightedScheduler.weightedSelect, WeightedScheduler.selectLoop,
        WeightedScheduler.totalWeightOf])
  · exact weight_zero_exclusion.2
      [⟨"g", ⟨"gravel", 0, 0⟩, 10, [2]⟩, ⟨"s", ⟨"sand", 0, 3⟩, 10, [1]⟩] 0
      ⟨"s", ⟨"sand", 0, 3⟩, 10, [1]⟩ (by decide)
      (by norm_num [EngineScheduler.totalWeightOf])
      (by norm_num [EngineScheduler.totalWeightOf])
      (by norm_num [EngineScheduler.weightedSelect, EngineScheduler.selectLoop,
        EngineScheduler.totalWeightOf])

end CCraft

namespace CCraft

/-! ## Claim C9: frame preservation of the caller's snapshot -/

namespace RefModel

theorem find_write_ne (l : List (Nat × Cell)) (a a' : Nat) (c : Cell) (h : a' ≠ a) :
    (l.map (fun p => if p.1 == a then (a, c) else p)).find? (fun p => p.1 == a') =
      l.find? (fun p => p.1 == a') := by
  induction l with
  | nil => rfl
  | cons q t ih =>
    simp only [List.map_cons, List.find?_cons]
    by_cases hq : q.1 = a
    · have h1 : ((a : Nat) == a') = false := by simp [Ne.symm h]
      have h2 : (q.1 == a') = false := by simp [hq, Ne.symm h]
      simp only [hq, beq_self_eq_true, if_pos]
      simp only [h1, h2]
      simpa using ih
    · have : (q.1 == a) = false := by simp [hq]
      simp only [this, Bool.false_eq_true, if_neg, ite_false]
      by_cases hq' : q.1 = a'
      · simp [hq']
      · have : (q.1 == a') = false := by simp [hq']
        simp only [this]
        simpa using ih

theorem readH_writeH_ne {st : Store} {a a' : Nat} {c : Cell} (h : a' ≠ a) :
    readH (writeH st a c) a' = readH st a' := by
  unfold readH writeH
  simp only
  rw [find_write_ne _ _ _ _ h]

theorem find_write_same (l : List (Nat × Cell)) (a : Nat) (c : Cell) :
    (l.map (fun p => if p.1 == a then (a, c) else p)).find? (fun p => p.1 == a) =
      (l.find? (fun p => p.1 == a)).map (fun _ => (a, c)) := by
  induction l with
  | nil => rfl
  | cons q t ih =>
    simp only [List.map_cons, List.find?_cons]
    by_cases hq : q.1 = a
    · simp only [hq, beq_self_eq_true, if_pos]
      simp
    · have : (q.1 == a) = false := by simp [hq]
      simp only [this, Bool.false_eq_true, if_neg, ite_false]
      simpa using ih

theorem readH_writeH_same (st : Store) (a : Nat) (c : Cell) :
    readH (writeH st a c) a = (readH st a).map (fun _ => c) := by
  unfold readH writeH
  simp only
  rw [find_write_same]
  cases st.heap.find? (fun p => p.1 == a) <;> rfl

theorem wfStore_writeH {st : Store} (hw : WfStore st) (a : Nat) (c : Cell) :
    WfStore (writeH st a c) := by
  intro p hp
  rcases List.mem_map.1 hp with ⟨q, hq, hqe⟩
  by_cases hqa : q.1 = a
  · rw [if_pos (by simpa using hqa)] at hqe
    rw [← hqe]
    simpa [← hqa] using hw q hq
  · rw [if_neg (by simpa using hqa)] at hqe
    rw [← hqe]
    exact hw q hq

theorem writeH_next (st : Store) (a : Nat) (c : Cell) : (writeH st a c).next = st.next :=
  rfl

theorem readH_allocH_ne {st : Store} {c : Cell} {a : Nat} (h : a ≠ st.next) :
    readH (allocH st c).1 a = readH st a := by
  unfold readH allocH
  simp only
  rw [List.find?_append]
  have : List.find? (fun p => p.1 == a) [(st.next, c)] = none := by
    simp [Ne.symm h]
  rw [this]
  cases st.heap.find? (fun p => p.1 == a) <;> rfl

theorem readH_allocH_self {st : Store} (hw : WfStore st) (c : Cell) :
    readH (allocH st c).1 st.next = some c := by
  unfold readH allocH
  simp only
  rw [List.find?_append]
  have h1 : List.find? (fun p => p.1 == st.next) st.heap = none := by
    rw [List.find?_eq_none]
    intro p hp
    have := hw p hp
    simp
    omega
  rw [h1]
  simp

theorem wfStore_allocH {st : Store} (hw : WfStore st) (c : Cell) :
    WfStore (allocH st c).1 := by
  intro p hp
  rcases List.mem_append.1 hp with hold | hnew
  · have := hw p hold
    simp only [allocH]
    omega
  · simp only [List.mem_singleton] at hnew
    rw [hnew]
    simp [allocH]

theorem allocH_next (st : Store) (c : Cell) : (allocH st c).1.next = st.next + 1 := rfl

theorem copySlots_spec : ∀ (ss : List Nat) (st : Store), WfStore st →
    WfStore (copySlots st ss).1 ∧
    st.next ≤ (copySlots st ss).1.next ∧
    (∀ a, a < st.next → readH (copySlots st ss).1 a = readH st a) ∧
    (∀ b ∈ (copySlots st ss).2, st.next ≤ b) ∧
    (∀ a t ss2, readH (copySlots st ss).1 a = some (.itemC t ss2) →
      readH st a = some (.itemC t ss2)) := by
  intro ss
  induction ss with
  | nil =>
    intro st hw
    exact ⟨hw, le_refl _, fun a _ => rfl, by simp [copySlots], fun a t ss2 h => h⟩
  | cons a0 rest ih =>
    intro st hw
    unfold copySlots
    simp only
    set sc : Int × Int :=
      (match readH st a0 with
       | some (.slotC s c) => (s, c)
       | _ => (0, 0)) with hsc
    have hw1 : WfStore (allocH st (.slotC sc.1 sc.2)).1 := wfStore_allocH hw _
    rcases ih (allocH st (.slotC sc.1 sc.2)).1 hw1 with ⟨hwr, hnr, hrr, hbr, hir⟩
    refine ⟨hwr, ?_, ?_, ?_, ?_⟩
    · rw [allocH_next] at hnr
      omega
    · intro a ha
      rw [hrr a (by rw [allocH_next]; omega)]
      exact readH_allocH_ne (by omega)
    · intro b hb
      simp only [List.mem_cons] at hb
      rcases hb with hb | hb
      · rw [hb]
        rfl
      · have := hbr b hb
        rw [allocH_next] at this
        omega
    · intro a t ss2 h
      have h2 : readH (allocH st (.slotC sc.1 sc.2)).1 a = some (.itemC t ss2) := hir a t ss2 h
      by_cases ha : a = st.next
      · rw [ha, readH_allocH_self hw] at h2
        cases h2
      · rwa [readH_allocH_ne ha] at h2

theorem copyItems_spec : ∀ (inv : List (String × Nat)) (st : Store) (n0 : Nat),
    WfStore st → n0 ≤ st.next → HighOk n0 st →
    WfStore (copyItems st inv).1 ∧
    st.next ≤ (copyItems st inv).1.next ∧
    (∀ a, a < st.next → readH (copyItems st inv).1 a = readH st a) ∧
    (∀ p ∈ (copyItems st inv).2, st.next ≤ p.2) ∧
    HighOk n0 (copyItems st inv).1 := by
  intro inv
  induction inv with
  | nil =>
    intro st n0 hw _ hh
    exact ⟨hw, le_refl _, fun a _ => rfl, by simp [copyItems], hh⟩
  | cons entry rest ih =>
    intro st n0 hw hn hh
    rcases entry with ⟨k, a0⟩
    unfold copyItems
    simp only
    set tv : Int × List Nat :=
      (match readH st a0 with
       | some (.itemC t ss) => (t, ss)
       | _ => (0, [])) with htv
    rcases copySlots_spec tv.2 st hw with ⟨hws, hns, hrs, hbs, his⟩
    set stss := (copySlots st tv.2).1 with hstss
    have hhs : HighOk n0 stss := by
      intro a t ss hna hread
      exact hh a t ss hna (his a t ss hread)
    have hwa : WfStore (allocH stss (.itemC tv.1 (copySlots st tv.2).2)).1 :=
      wfStore_allocH hws _
    have hha : HighOk n0 (allocH stss (.itemC tv.1 (copySlots st tv.2).2)).1 := by
      intro a t ss hna hread
      by_cases ha : a = stss.next
      · rw [ha, readH_allocH_self hws] at hread
        injection hread with h2
        injection h2 with _ h3
        intro b hb
        rw [← h3] at hb
        have := hbs b hb
        omega
      · rw [readH_allocH_ne ha] at hread
        exact hhs a t ss hna hread
    rcases ih (allocH stss (.itemC tv.1 (copySlots st tv.2).2)).1 n0 hwa
        (by rw [allocH_next]; omega) hha with ⟨hwr, hnr, hrr, hbr, hhr⟩
    refine ⟨hwr, ?_, ?_, ?_, hhr⟩
    · rw [allocH_next] at hnr
      omega
    · intro a ha
      rw [hrr a (by rw [allocH_next]; omega)]
      rw [readH_allocH_ne (by omega)]
      exact hrs a ha
    · intro p hp
      simp only [List.mem_cons] at hp
      rcases hp with hp | hp
      · rw [hp]
        show st.next ≤ stss.next
        omega
      · have := hbr p hp
        rw [allocH_next] at this
        omega

theorem commitH_spec (tA : Int) (st : Store) (localInv : List (String × Nat))
    (itemId : String) (aSlot : Nat) (n0 : Nat)
    (hs : n0 ≤ aSlot) (hl : LocalOk n0 localInv) (hh : HighOk n0 st) :
    (∀ a, a < n0 → readH (commitH tA st localInv itemId aSlot).1 a = readH st a) ∧
    HighOk n0 (commitH tA st localInv itemId aSlot).1 ∧
    LocalOk n0 (commitH tA st localInv itemId aSlot).2 := by
  unfold commitH
  cases hlk : lookupA localInv itemId with
  | none => exact ⟨fun a _ => rfl, hh, hl⟩
  | some itemAddr =>
    simp only
    have hia : n0 ≤ itemAddr := hl _ (lookupA_mem hlk)
    set st1 := writeH st aSlot (.slotC (readSlotIdx st aSlot) (readSlotCount st aSlot - tA))
      with hst1
    have hr1 : ∀ a, a < n0 → readH st1 a = readH st a := by
      intro a ha
      exact readH_writeH_ne (by omega)
    have hh1 : HighOk n0 st1 := by
      intro a t ss hna hread
      by_cases ha : a = aSlot
      · rw [ha] at hread
        rw [hst1, readH_writeH_same] at hread
        cases hcell : readH st aSlot with
        | none => rw [hcell] at hread; cases hread
        | some c => rw [hcell] at hread; cases hread
      · rw [hst1, readH_writeH_ne ha] at hread
        exact hh a t ss hna hread
    cases hri : readItem st1 itemAddr with
    | none => exact ⟨hr1, hh1, hl⟩
    | some tv =>
      rcases tv with ⟨t, ss⟩
      simp only
      have hss : ∀ b ∈ ss, n0 ≤ b := by
        unfold readItem at hri
        cases hcell : readH st1 itemAddr with
        | none => rw [hcell] at hri; cases hri
        | some c =>
          rw [hcell] at hri
          cases c with
          | slotC s c2 => cases hri
          | itemC t2 ss2 =>
            injection hri with h2
            injection h2 with h3 h4
            rw [h3, h4] at hcell
            exact hh1 itemAddr t ss hia hcell
      set ss2 := if readSlotCount st1 aSlot ≤ 0 then ss.filter (fun b => !(b == aSlot)) else ss
        with hss2
      have hss2mem : ∀ b ∈ ss2, b ∈ ss := by
        intro b hb
        rw [hss2] at hb
        by_cases hz : readSlotCount st1 aSlot ≤ 0
        · rw [if_pos hz] at hb
          exact List.mem_of_mem_filter hb
        · rwa [if_neg hz] at hb
      set st2 := writeH st1 itemAddr (.itemC (t - tA) ss2) with hst2
      have hr2 : ∀ a, a < n0 → readH st2 a = readH st a := by
        intro a ha
        rw [hst2, readH_writeH_ne (by omega)]
        exact hr1 a ha
      have hh2 : HighOk n0 st2 := by
        intro a t3 ss3 hna hread
        by_cases ha : a = itemAddr
        · rw [ha] at hread
          rw [hst2, readH_writeH_same] at hread
          cases hcell : readH st1 itemAddr with
          | none => rw [hcell] at hread; cases hread
          | some c =>
            rw [hcell] at hread
            injection hread with h2
            injection h2 with h3 h4
            intro b hb
            rw [← h4] at hb
            exact hss b (hss2mem b hb)
        · rw [hst2, readH_writeH_ne ha] at hread
          exact hh1 a t3 ss3 hna hread
      by_cases hz : t - tA ≤ 0
      · rw [if_pos hz]
        refine ⟨hr2, hh2, ?_⟩
        intro p hp
        exact hl p (mem_eraseA hp)
      · rw [if_neg hz]
        exact ⟨hr2, hh2, hl⟩

theorem mem_getAvailableMaterialsH_high {cfg : WeightedScheduler.Config}
    {machineType : WeightedScheduler.MachineTypeDefinition} {st : Store}
    {localInv : List (String × Nat)} {n0 : Nat} {am : AvailableMaterialH}
    (hl : LocalOk n0 localInv) (hh : HighOk n0 st)
    (h : am ∈ getAvailableMaterialsH cfg machineType st localInv) :
    ∀ b ∈ am.slotAddrs, n0 ≤ b := by
  unfold getAvailableMaterialsH at h
  rcases List.mem_filterMap.1 h with ⟨matId, _, heq⟩
  cases hm : lookupA cfg.materials matId with
  | none => rw [hm] at heq; simp at heq
  | some matDef =>
    rw [hm] at heq
    simp only at heq
    cases ha : lookupA localInv matDef.itemId with
    | none => rw [ha] at heq; simp at heq
    | some addr =>
      rw [ha] at heq
      simp only at heq
      cases hri : readItem st addr with
      | none => rw [hri] at heq; simp at heq
      | some tv =>
        rcases tv with ⟨t, ss⟩
        rw [hri] at heq
        simp only at heq
        by_cases hlt : t < matDef.minStock + cfg.transferAmount
        · rw [if_pos hlt] at heq; simp at heq
        · rw [if_neg hlt] at heq
          injection heq with h2
          subst h2
          intro b hb
          have haddr : n0 ≤ addr := hl _ (lookupA_mem ha)
          unfold readItem at hri
          cases hcell : readH st addr with
          | none => rw [hcell] at hri; cases hri
          | some c =>
            rw [hcell] at hri
            cases c with
            | slotC s c2 => cases hri
            | itemC t2 ss2 =>
              injection hri with h3
              injection h3 with h4 h5
              rw [h4, h5] at hcell
              exact hh addr t ss haddr hcell b hb

theorem selectLoopH_mem {r : ℚ} {l : List AvailableMaterialH} {cum : ℚ}
    {m : AvailableMaterialH} (h : selectLoopH r l cum = some m) : m ∈ l := by
  induction l generalizing cum with
  | nil => simp [selectLoopH] at h
  | cons a t ih =>
    unfold selectLoopH at h
    by_cases hr : r < cum + a.definition.weight
    · simp only [hr, if_pos] at h
      cases h
      exact List.mem_cons_self _ _
    · simp only [hr, if_neg, ite_false] at h
      exact List.mem_cons_of_mem _ (ih h)

theorem weightedSelectH_mem {mats : List AvailableMaterialH} {u : ℚ}
    {m : AvailableMaterialH} (h : weightedSelectH mats u = some m) : m ∈ mats := by
  match mats with
  | [] => simp [weightedSelectH] at h
  | [a] =>
    simp [weightedSelectH] at h
    simp [h]
  | a :: b :: t =>
    unfold weightedSelectH at h
    simp only at h
    cases hsel : selectLoopH (u * totalWeightOfH (a :: b :: t)) (a :: b :: t) 0 with
    | some m2 =>
      rw [hsel] at h
      cases h
      exact selectLoopH_mem hsel
    | none =>
      rw [hsel] at h
      simp at h
      simp [h]

theorem findSlotAddr_mem {st : Store} {ss : List Nat} {tA : Int} {a : Nat}
    (h : findSlotAddr st ss tA = some a) : a ∈ ss := by
  unfold findSlotAddr at h
  cases hf : ss.find? (fun b => decide (tA ≤ readSlotCount st b)) with
  | some b =>
    rw [hf] at h
    injection h with h2
    rw [← h2]
    exact List.mem_of_find?_eq_some hf
  | none =>
    rw [hf] at h
    simp only [Option.none_orElse] at h
    exact List.mem_of_mem_head? h

theorem readH_none_of_ge {st : Store} (hw : WfStore st) {a : Nat}
    (h : st.next ≤ a) : readH st a = none := by
  unfold readH
  rw [show st.heap.find? (fun p => p.1 == a) = none from ?_]
  · rfl
  · rw [List.find?_eq_none]
    intro p hp
    have := hw p hp
    simp
    omega

theorem highOk_next {st : Store} (hw : WfStore st) : HighOk st.next st := by
  intro a t ss hna hread
  rw [readH_none_of_ge hw hna] at hread
  cases hread

theorem weightedScheduleHGo_cons (cfg : WeightedScheduler.Config) (rand : Nat → ℚ)
    (machine : MachineState) (rest : List MachineState) (i : Nat) (st : Store)
    (localInv : List (String × Nat)) :
    weightedScheduleHGo cfg rand (machine :: rest) i st localInv =
      weightedScheduleHGo cfg rand rest (i + 1) st localInv ∨
    ∃ (selected : AvailableMaterialH) (aSlot : Nat)
      (machineType : WeightedScheduler.MachineTypeDefinition),
      lookupA cfg.machineTypes machine.type = some machineType ∧
      weightedSelectH (getAvailableMaterialsH cfg machineType st localInv) (rand i) =
        some selected ∧
      findSlotAddr st selected.slotAddrs cfg.transferAmount = some aSlot ∧
      weightedScheduleHGo cfg rand (machine :: rest) i st localInv =
        ({ machineId := machine.id, targetChest := machine.inputChest,
           itemId := selected.definition.itemId, sourceSlot := readSlotIdx st aSlot,
           amount := cfg.transferAmount } ::
          (weightedScheduleHGo cfg rand rest (i + 1)
            (commitH cfg.transferAmount st localInv selected.definition.itemId aSlot).1
            (commitH cfg.transferAmount st localInv selected.definition.itemId aSlot).2).1,
         (weightedScheduleHGo cfg rand rest (i + 1)
           (commitH cfg.transferAmount st localInv selected.definition.itemId aSlot).1
           (commitH cfg.transferAmount st localInv selected.definition.itemId aSlot).2).2) := by
  cases hempty : machine.isEmpty with
  | false => left; simp [weightedScheduleHGo, hempty]
  | true =>
    cases hmt : lookupA cfg.machineTypes machine.type with
    | none => left; simp [weightedScheduleHGo, hempty, hmt]
    | some machineType =>
      cases hsel : weightedSelectH (getAvailableMaterialsH cfg machineType st localInv)
          (rand i) with
      | none => left; simp [weightedScheduleHGo, hempty, hmt, hsel]
      | some selected =>
        cases hfind : findSlotAddr st selected.slotAddrs cfg.transferAmount with
        | none => left; simp [weightedScheduleHGo, hempty, hmt, hsel, hfind]
        | some aSlot =>
          right
          refine ⟨selected, aSlot, machineType, rfl, hsel, hfind, ?_⟩
          simp [weightedScheduleHGo, hempty, hmt, hsel, hfind]

theorem weightedScheduleHGo_frame (cfg : WeightedScheduler.Config) (rand : Nat → ℚ)
    (n0 : Nat) :
    ∀ (machines : List MachineState) (i : Nat) (st : Store)
      (localInv : List (String × Nat)),
      HighOk n0 st → LocalOk n0 localInv →
      ∀ a, a < n0 →
        readH (weightedScheduleHGo cfg rand machines i st localInv).2 a = readH st a := by
  intro machines
  induction machines with
  | nil => intro i st localInv _ _ a _; rfl
  | cons machine rest ih =>
    intro i st localInv hh hl a ha
    rcases weightedScheduleHGo_cons cfg rand machine rest i st localInv with heq |
      ⟨selected, aSlot, machineType, _, hsel, hfind, heq⟩
    · rw [heq]
      exact ih (i + 1) st localInv hh hl a ha
    · rw [heq]
      simp only
      have hmem := weightedSelectH_mem hsel
      have hhigh := mem_getAvailableMaterialsH_high hl hh hmem
      have haS : n0 ≤ aSlot := hhigh aSlot (findSlotAddr_mem hfind)
      rcases commitH_spec cfg.transferAmount st localInv selected.definition.itemId aSlot n0
        haS hl hh with ⟨hcr, hch, hcl⟩
      rw [ih (i + 1) _ _ hch hcl a ha]
      exact hcr a ha

theorem tryAssignRecipeH_frame (cfg : StockBasedScheduler.Config) (machine : MachineState)
    (n0 : Nat) :
    ∀ (scored : List StockBasedScheduler.ScoredRecipe) (st : Store)
      (localInv : List (String × Nat)) (asg : Assignment) (st2 : Store)
      (inv2 : List (String × Nat)),
      HighOk n0 st → LocalOk n0 localInv →
      tryAssignRecipeH cfg machine scored st localInv = some (asg, st2, inv2) →
      (∀ a, a < n0 → readH st2 a = readH st a) ∧ HighOk n0 st2 ∧ LocalOk n0 inv2 := by
  intro scored
  induction scored with
  | nil => intro st localInv asg st2 inv2 _ _ h; simp [tryAssignRecipeH] at h
  | cons sr rest ih =>
    intro st localInv asg st2 inv2 hh hl h
    unfold tryAssignRecipeH at h
    by_cases hu : sr.urgency ≤ 0
    · rw [if_pos hu] at h
      exact ih st localInv asg st2 inv2 hh hl h
    · rw [if_neg hu] at h
      cases hlk : lookupA localInv sr.recipe.input with
      | none =>
        rw [hlk] at h
        exact ih st localInv asg st2 inv2 hh hl h
      | some inputAddr =>
        rw [hlk] at h
        simp only at h
        cases hri : readItem st inputAddr with
        | none =>
          rw [hri] at h
          exact ih st localInv asg st2 inv2 hh hl h
        | some tv =>
          rcases tv with ⟨t, ss⟩
          rw [hri] at h
          simp only at h
          by_cases hreq : t < StockBasedScheduler.reserveFor cfg sr.recipe.input +
              cfg.transferAmount
          · rw [if_pos hreq] at h
            exact ih st localInv asg st2 inv2 hh hl h
          · rw [if_neg hreq] at h
            cases hfind : findSlotAddr st ss cfg.transferAmount with
            | none =>
              rw [hfind] at h
              exact ih st localInv asg st2 inv2 hh hl h
            | some aSlot =>
              rw [hfind] at h
              injection h with hpair
              injection hpair with h1 h2
              have hia : n0 ≤ inputAddr := hl _ (lookupA_mem hlk)
              have hss : ∀ b ∈ ss, n0 ≤ b := by
                unfold readItem at hri
                cases hcell : readH st inputAddr with
                | none => rw [hcell] at hri; cases hri
                | some c =>
                  rw [hcell] at hri
                  cases c with
                  | slotC s c2 => cases hri
                  | itemC t2 ss2 =>
                    injection hri with h3
                    injection h3 with h4 h5
                    rw [h4, h5] at hcell
                    exact hh inputAddr t ss hia hcell
              have haS : n0 ≤ aSlot := hss aSlot (findSlotAddr_mem hfind)
              rcases commitH_spec cfg.transferAmount st localInv sr.recipe.input aSlot n0
                haS hl hh with ⟨hcr, hch, hcl⟩
              have hst2 : st2 = (commitH cfg.transferAmount st localInv
                  sr.recipe.input aSlot).1 := by rw [h2]
              have hinv2 : inv2 = (commitH cfg.transferAmount st localInv
                  sr.recipe.input aSlot).2 := by rw [h2]
              rw [hst2, hinv2]
              exact ⟨hcr, hch, hcl⟩

theorem stockScheduleHGo_cons (cfg : StockBasedScheduler.Config) (machine : MachineState)
    (rest : List MachineState) (st : Store) (localInv : List (String × Nat)) :
    stockScheduleHGo cfg (machine :: rest) st localInv =
      stockScheduleHGo cfg rest st localInv ∨
    ∃ (recipes : List StockBasedScheduler.RecipeDefinition) (asg : Assignment)
      (st2 : Store) (inv2 : List (String × Nat)),
      lookupA cfg.recipes machine.type = some recipes ∧
      tryAssignRecipeH cfg machine
        ((scoreRecipesH cfg recipes st localInv).mergeSort StockBasedScheduler.scoredLE)
        st localInv = some (asg, st2, inv2) ∧
      stockScheduleHGo cfg (machine :: rest) st localInv =
        (asg :: (stockScheduleHGo cfg rest st2 inv2).1,
         (stockScheduleHGo cfg rest st2 inv2).2) := by
  cases hr : lookupA cfg.recipes machine.type with
  | none => left; simp [stockScheduleHGo, hr]
  | some recipes =>
    by_cases hempty : recipes.isEmpty
    · left; simp [stockScheduleHGo, hr, hempty]
    · cases htry : tryAssignRecipeH cfg machine
          ((scoreRecipesH cfg recipes st localInv).mergeSort StockBasedScheduler.scoredLE)
          st localInv with
      | none => left; simp [stockScheduleHGo, hr, hempty, htry]
      | some trip =>
        right
        refine ⟨recipes, trip.1, trip.2.1, trip.2.2, rfl, by rw [htry], ?_⟩
        simp [stockScheduleHGo, hr, hempty, htry]

theorem stockScheduleHGo_frame (cfg : StockBasedScheduler.Config) (n0 : Nat) :
    ∀ (machines : List MachineState) (st : Store) (localInv : List (String × Nat)),
      HighOk n0 st → LocalOk n0 localInv →
      ∀ a, a < n0 →
        readH (stockScheduleHGo cfg machines st localInv).2 a = readH st a := by
  intro machines
  induction machines with
  | nil => intro st localInv _ _ a _; rfl
  | cons machine rest ih =>
    intro st localInv hh hl a ha
    rcases stockScheduleHGo_cons cfg machine rest st localInv with heq |
      ⟨recipes, asg, st2, inv2, _, htry, heq⟩
    · rw [heq]
      exact ih st localInv hh hl a ha
    · rw [heq]
      simp only
      rcases tryAssignRecipeH_frame cfg machine n0 _ st localInv asg st2 inv2 hh hl htry
        with ⟨hcr, hch, hcl⟩
      rw [ih st2 inv2 hch hcl a ha]
      exact hcr a ha

end RefModel

end CCraft

namespace CCraft

/-- C9.  Policy purity with respect to its input: in the reference-semantics
model, a call to either policy's `schedule` leaves every record the caller
allocated before the call (all heap cells at addresses below the allocation
watermark `st.next`) exactly as it was — same item records, same slot
records — because all bookkeeping happens on the deep local copy allocated
at fresh addresses.  In particular the caller's inventory map, its
`totalCount` fields and its slot lists are unchanged after the call. -/
theorem schedule_frame_preservation :
    (∀ (cfg : WeightedScheduler.Config) (rand : Nat → ℚ) (machines : List MachineState)
       (st : RefModel.Store) (inventory : List (String × Nat)),
      RefModel.WfStore st →
      ∀ a, a < st.next →
        RefModel.readH (RefModel.weightedScheduleH cfg rand machines st inventory).2 a =
          RefModel.readH st a) ∧
    (∀ (cfg : StockBasedScheduler.Config) (machines : List MachineState)
       (st : RefModel.Store) (inventory : List (String × Nat)),
      RefModel.WfStore st →
      ∀ a, a < st.next →
        RefModel.readH (RefModel.stockScheduleH cfg machines st inventory).2 a =
          RefModel.readH st a) := by
  constructor
  · intro cfg rand machines st inventory hw a ha
    rcases RefModel.copyItems_spec inventory st st.next hw (le_refl _)
      (RefModel.highOk_next hw) with ⟨_, _, hcr, hcl, hch⟩
    unfold RefModel.weightedScheduleH
    simp only
    rw [RefModel.weightedScheduleHGo_frame cfg rand st.next machines 0
      (RefModel.copyItems st inventory).1 (RefModel.copyItems st inventory).2 hch hcl a ha]
    exact hcr a ha
  · intro cfg machines st inventory hw a ha
    rcases RefModel.copyItems_spec inventory st st.next hw (le_refl _)
      (RefModel.highOk_next hw) with ⟨_, _, hcr, hcl, hch⟩
    unfold RefModel.stockScheduleH
    simp only
    rw [RefModel.stockScheduleHGo_frame cfg st.next (machines.filter (·.isEmpty))
      (RefModel.copyItems st inventory).1 (RefModel.copyItems st inventory).2 hch hcl a ha]
    exact hcr a ha

/-- Witness for C9: a store holding one caller-allocated item record
(address 0, 130 sand) with one slot record (address 1); after each policy
runs — scheduling a transfer out of that item — both caller records read
back unchanged. -/
theorem schedule_frame_preservation_witness :
    (RefModel.readH
      (RefModel.weightedScheduleH
        { materials := [("sand", ⟨"sand", "minecraft:sand", 0, 1⟩)],
          machineTypes := [("hammer", ⟨["sand"]⟩)], transferAmount := 64 }
        (fun _ => 0) [⟨"m1", "hammer", "c1", true⟩]
        { heap := [(0, .itemC 130 [1]), (1, .slotC 1 130)], next := 2 }
        [("minecraft:sand", 0)]).2 0 =
      RefModel.readH { heap := [(0, .itemC 130 [1]), (1, .slotC 1 130)], next := 2 } 0) ∧
    (RefModel.readH
      (RefModel.stockScheduleH
        { recipes := [("press", [⟨"minecraft:cobblestone", "minecraft:gravel"⟩])],
          stockTargets := [⟨"minecraft:gravel", 8192, 1, none⟩], transferAmount := 64 }
        [⟨"p1", "press", "c1", true⟩]
        { heap := [(0, .itemC 130 [1]), (1, .slotC 1 130)], next := 2 }
        [("minecraft:cobblestone", 0)]).2 1 =
      RefModel.readH { heap := [(0, .itemC 130 [1]), (1, .slotC 1 130)], next := 2 } 1) :=
  ⟨schedule_frame_preservation.1
    { materials := [("sand", ⟨"sand", "minecraft:sand", 0, 1⟩)],
      machineTypes := [("hammer", ⟨["sand"]⟩)], transferAmount := 64 }
    (fun _ => 0) [⟨"m1", "hammer", "c1", true⟩]
    { heap := [(0, .itemC 130 [1]), (1, .slotC 1 130)], next := 2 }
    [("minecraft:sand", 0)] (by unfold RefModel.WfStore; decide) 0 (by decide),
   schedule_frame_preservation.2
    { recipes := [("press", [⟨"minecraft:cobblestone", "minecraft:gravel"⟩])],
      stockTargets := [⟨"minecraft:gravel", 8192, 1, none⟩], transferAmount := 64 }
    [⟨"p1", "press", "c1", true⟩]
    { heap := [(0, .itemC 130 [1]), (1, .slotC 1 130)], next := 2 }
    [("minecraft:cobblestone", 0)] (by unfold RefModel.WfStore; decide) 1 (by decide)⟩

end CCraft
